import Mathlib

/-
Verification of the Gram-matrix power-iteration PCA engine and its
out-of-sample projector (src/ml/pca.js).

Embedding conventions:
- JavaScript numbers are modelled as exact rationals.
- Math.sqrt is modelled by an abstract oracle parameter sq with its
  defining properties (nonnegativity, squaring back) hypothesised at the
  points where they matter; the literal 1e-12 is modelled as the exact
  rational 10 to the minus 12.
- The Math.random initialisation of power iteration is modelled by an
  explicit parameter r holding the drawn values, so that the i-th initial
  entry is r[i] - 1/2, exactly as in the source.
- JavaScript array reads a[i] with the fallback of 0 for out-of-range
  indices (used via the nullish-coalescing operator in the source) are
  modelled with List.getD.
- A possibly-null argument at the public interface is an Option.
-/

/- The literal 1e-12 added to norms and singular values in pca.js. -/
def eps : ℚ := 1 / 10 ^ 12

/- dot(a, b): loop over a.length accumulating a[i] * b[i]. -/
def dot (a b : List ℚ) : ℚ :=
  ((List.range a.length).map (fun i => a.getD i 0 * b.getD i 0)).sum

/- norm(v) = Math.sqrt(dot(v, v)) + 1e-12, with sq for Math.sqrt. -/
def nrm (sq : ℚ → ℚ) (v : List ℚ) : ℚ := sq (dot v v) + eps

/- normalize(v): divide every entry by norm(v); named normalizeVec here because Mathlib already has a normalize. -/
def normalizeVec (sq : ℚ → ℚ) (v : List ℚ) : List ℚ :=
  let n := nrm sq v
  v.map (fun x => x / n)

/- matVecMul(A, v): out[i] = sum over j < A.length of A[i][j] * v[j]. -/
def matVecMul (A : List (List ℚ)) (v : List ℚ) : List ℚ :=
  (List.range A.length).map (fun i =>
    ((List.range A.length).map (fun j =>
      (A.getD i []).getD j 0 * v.getD j 0)).sum)

/- Result of powerIterationTop1: the iterated vector v and the Rayleigh
quotient lambda. -/
structure EigResult where
  v : List ℚ
  lambda : ℚ
deriving DecidableEq

/- The iteration loop of powerIterationTop1: iters times, multiply by A
and renormalize. -/
def powerIterLoop (sq : ℚ → ℚ) (A : List (List ℚ)) : ℕ → List ℚ → List ℚ
  | 0, v => v
  | t + 1, v => powerIterLoop sq A t (normalizeVec sq (matVecMul A v))

/- powerIterationTop1(A, iters): initialise v[i] = random - 0.5 (the
draws are the parameter r), normalize, iterate, then estimate the
eigenvalue by the Rayleigh quotient dot(v, A v). -/
def powerIterationTop1 (sq : ℚ → ℚ) (A : List (List ℚ)) (r : List ℚ)
    (iters : ℕ) : EigResult :=
  let v0 := normalizeVec sq ((List.range A.length).map (fun i => r.getD i 0 - 1 / 2))
  let v := powerIterLoop sq A iters v0
  ⟨v, dot v (matVecMul A v)⟩

/- deflate(A, v, lambda): A[i][j] - lambda * v[i] * v[j], as the value of
the updated matrix. -/
def deflate (A : List (List ℚ)) (v : List ℚ) (lambda : ℚ) : List (List ℚ) :=
  (List.range A.length).map (fun i =>
    (List.range A.length).map (fun j =>
      (A.getD i []).getD j 0 - lambda * v.getD i 0 * v.getD j 0))

/- centerEmbeddings(embeddings): per-coordinate mean over N rows of
dimension D = embeddings[0].length, then the mean-subtracted rows. -/
def centerEmbeddings (embeddings : List (List ℚ)) : List ℚ × List (List ℚ) :=
  let N := embeddings.length
  let D := (embeddings.headD []).length
  let mean := (List.range D).map (fun d =>
    ((List.range N).map (fun i => (embeddings.getD i []).getD d 0)).sum / (N : ℚ))
  let Xc := (List.range N).map (fun i =>
    (List.range D).map (fun d => (embeddings.getD i []).getD d 0 - mean.getD d 0))
  (mean, Xc)

/- gramMatrix(Xc): N x N matrix of pairwise dots; the source fills the
diagonal and the upper triangle and mirrors the value to the lower
triangle, so the entry at i > j is dot(Xc[j], Xc[i]). -/
def gramMatrix (Xc : List (List ℚ)) : List (List ℚ) :=
  (List.range Xc.length).map (fun i =>
    (List.range Xc.length).map (fun j =>
      if i ≤ j then dot (Xc.getD i []) (Xc.getD j [])
      else dot (Xc.getD j []) (Xc.getD i [])))

/- computeComponents(Xc, U2, S2): comps[k][d] =
(sum over i of U2[k][i] * Xc[i][d]) * (1 / (S2[k] + 1e-12)), for k < 2
and d < Xc[0].length. -/
def computeComponents (Xc U2 : List (List ℚ)) (S2 : List ℚ) : List (List ℚ) :=
  let N := Xc.length
  let D := (Xc.headD []).length
  (List.range 2).map (fun k =>
    let invS := 1 / (S2.getD k 0 + eps)
    (List.range D).map (fun d =>
      ((List.range N).map (fun i =>
        (U2.getD k []).getD i 0 * (Xc.getD i []).getD d 0)).sum * invS))

/- The record returned by runPCA2D. -/
structure PCAResult where
  points2d : List (ℚ × ℚ)
  mean : List ℚ
  components : List (List ℚ)
deriving DecidableEq

/- The sliding window of runPCA2D: if N > 400 keep only the most recent
400 samples (embeddings.slice(N - 400)). -/
def pcaRetained (embeddings : List (List ℚ)) : List (List ℚ) :=
  if embeddings.length > 400 then embeddings.drop (embeddings.length - 400)
  else embeddings

/- Mean and centered matrix of the retained samples. -/
def pcaCenter (embeddings : List (List ℚ)) : List ℚ × List (List ℚ) :=
  centerEmbeddings (pcaRetained embeddings)

/- The Gram matrix A of runPCA2D. -/
def pcaGram (embeddings : List (List ℚ)) : List (List ℚ) :=
  gramMatrix (pcaCenter embeddings).2

/- e1 = powerIterationTop1(A, 90). -/
def pcaE1 (sq : ℚ → ℚ) (embeddings : List (List ℚ)) (r1 : List ℚ) : EigResult :=
  powerIterationTop1 sq (pcaGram embeddings) r1 90

/- The matrix after deflate(A, e1.v, e1.lambda). -/
def pcaDeflated (sq : ℚ → ℚ) (embeddings : List (List ℚ)) (r1 : List ℚ) :
    List (List ℚ) :=
  deflate (pcaGram embeddings) (pcaE1 sq embeddings r1).v (pcaE1 sq embeddings r1).lambda

/- e2 = powerIterationTop1(deflated A, 90). -/
def pcaE2 (sq : ℚ → ℚ) (embeddings : List (List ℚ)) (r1 r2 : List ℚ) : EigResult :=
  powerIterationTop1 sq (pcaDeflated sq embeddings r1) r2 90

/- lambda1 = Math.max(0, e1.lambda). -/
def pcaLambda1 (sq : ℚ → ℚ) (embeddings : List (List ℚ)) (r1 : List ℚ) : ℚ :=
  max 0 (pcaE1 sq embeddings r1).lambda

/- lambda2 = Math.max(0, e2.lambda). -/
def pcaLambda2 (sq : ℚ → ℚ) (embeddings : List (List ℚ)) (r1 r2 : List ℚ) : ℚ :=
  max 0 (pcaE2 sq embeddings r1 r2).lambda

/- s1 = Math.sqrt(lambda1). -/
def pcaS1 (sq : ℚ → ℚ) (embeddings : List (List ℚ)) (r1 : List ℚ) : ℚ :=
  sq (pcaLambda1 sq embeddings r1)

/- s2 = Math.sqrt(lambda2). -/
def pcaS2 (sq : ℚ → ℚ) (embeddings : List (List ℚ)) (r1 r2 : List ℚ) : ℚ :=
  sq (pcaLambda2 sq embeddings r1 r2)

/- runPCA2D(embeddings): sentinel on null or fewer than two samples;
otherwise slide the window, center, build the Gram matrix, extract two
eigenpairs by power iteration with deflation, clamp the eigenvalues,
and return the scores U[i] * s, the mean, and the reconstructed
components. r1 and r2 are the random draws of the two power iterations. -/
def runPCA2D (sq : ℚ → ℚ) (embeddingsO : Option (List (List ℚ)))
    (r1 r2 : List ℚ) : PCAResult :=
  match embeddingsO with
  | none => ⟨[], [], []⟩
  | some embeddings =>
    if embeddings.length < 2 then ⟨[], [], []⟩
    else
      ⟨(List.range (pcaRetained embeddings).length).map (fun i =>
          ((pcaE1 sq embeddings r1).v.getD i 0 * pcaS1 sq embeddings r1,
           (pcaE2 sq embeddings r1 r2).v.getD i 0 * pcaS2 sq embeddings r1 r2)),
       (pcaCenter embeddings).1,
       computeComponents (pcaCenter embeddings).2
         [(pcaE1 sq embeddings r1).v, (pcaE2 sq embeddings r1 r2).v]
         [pcaS1 sq embeddings r1, pcaS2 sq embeddings r1 r2]⟩

/- projectWithPCA(embedding, mean, components): null when any argument is
null or components.length is not 2; otherwise the loop accumulating
z0 and z1 over i < embedding.length, with missing coordinates of mean and
of the component rows read as 0. -/
def projectWithPCA (embedding mean : Option (List ℚ))
    (components : Option (List (List ℚ))) : Option (ℚ × ℚ) :=
  match embedding, mean, components with
  | some e, some m, some cs =>
    if cs.length = 2 then
      some ((List.range e.length).foldl (fun z i =>
        (z.1 + (e.getD i 0 - m.getD i 0) * (cs.getD 0 []).getD i 0,
         z.2 + (e.getD i 0 - m.getD i 0) * (cs.getD 1 []).getD i 0)) (0, 0))
    else none
  | _, _, _ => none

/- A concrete sqrt oracle used to instantiate witnesses. -/
def zeroSqrt : ℚ → ℚ := fun _ => 0

/- A concrete oracle that agrees with zeroSqrt on nonnegative inputs but
differs on negative ones. -/
def negProbe : ℚ → ℚ := fun x => if 0 ≤ x then 0 else -5

/- Heap model for the frame claim. A Store is the list of all numeric
arrays allocated so far, addressed by allocation index; the JavaScript
arrays runPCA2D touches are references into it. hAlloc appends a fresh
array (new Float32Array / new Array), hWrite mutates the array at a
reference in place, hRead dereferences. The imperative pipeline below
mirrors which arrays the source allocates and which it mutates: the mean
and the centered rows are allocated fresh and filled (centerEmbeddings),
the Gram rows are allocated fresh and copied with Array.from
(gramMatrix), the iteration vector is allocated fresh and normalized in
place (powerIterationTop1), and deflate writes every row of the copied
Gram matrix in place. The numeric contents reuse the pure definitions;
only allocation and mutation are made explicit, which is what the claim
is about. -/
abbrev Store : Type := List (List ℚ)

/- Allocate a fresh array at the end of the store, returning its
reference. -/
def hAlloc (s : Store) (v : List ℚ) : Store × ℕ := (s ++ [v], s.length)

/- Mutate the array at reference r in place. -/
def hWrite (s : Store) (r : ℕ) (v : List ℚ) : Store := s.set r v

/- Dereference. -/
def hRead (s : Store) (r : ℕ) : List ℚ := s.getD r []

/- Allocate one fresh zero-filled array per row and fill it by mutation
(the Float32Array rows of centerEmbeddings and gramMatrix). -/
def allocRowsImp : Store → List (List ℚ) → Store × List ℕ
  | s, [] => (s, [])
  | s, row :: rest =>
    let q := hAlloc s (List.replicate row.length 0)
    let s1 := hWrite q.1 q.2 row
    let t := allocRowsImp s1 rest
    (t.1, q.2 :: t.2)

/- Copy each referenced array into a fresh allocation (the Array.from
copies of gramMatrix). -/
def copyRowsImp : Store → List ℕ → Store × List ℕ
  | s, [] => (s, [])
  | s, ref :: rest =>
    let q := hAlloc s (hRead s ref)
    let t := copyRowsImp q.1 rest
    (t.1, q.2 :: t.2)

/- centerEmbeddings in the heap model: read the samples, allocate and
fill the mean, allocate and fill the centered rows; returns the mean
reference and the row references. -/
def centerEmbeddingsImp (s : Store) (refs : List ℕ) : Store × ℕ × List ℕ :=
  let c := centerEmbeddings (refs.map (hRead s))
  let p := hAlloc s (List.replicate c.1.length 0)
  let s1 := hWrite p.1 p.2 c.1
  let rows := allocRowsImp s1 c.2
  (rows.1, p.2, rows.2)

/- gramMatrix in the heap model: read the centered rows, allocate and
fill the Float32Array rows of G, then copy them with Array.from into the
plain-array rows A that deflation will later mutate. -/
def gramMatrixImp (s : Store) (xcRefs : List ℕ) : Store × List ℕ :=
  let g := gramMatrix (xcRefs.map (hRead s))
  let gr := allocRowsImp s g
  let ar := copyRowsImp gr.1 gr.2
  (ar.1, ar.2)

/- The iteration loop in the heap model: each step allocates the fresh
product vector (matVecMul allocates its out array) and then normalizes
it in place. -/
def powerLoopImp (sq : ℚ → ℚ) (A : List (List ℚ)) : ℕ → Store → ℕ → Store × ℕ
  | 0, s, vref => (s, vref)
  | t + 1, s, vref =>
    let p := hAlloc s (matVecMul A (hRead s vref))
    let s1 := hWrite p.1 p.2 (normalizeVec sq (hRead p.1 p.2))
    powerLoopImp sq A t s1 p.2

/- powerIterationTop1 in the heap model: allocate the fresh random
vector, normalize it in place, run the loop, and return the final vector
reference with the Rayleigh quotient. -/
def powerIterationTop1Imp (sq : ℚ → ℚ) (s : Store) (aRefs : List ℕ)
    (r : List ℚ) (iters : ℕ) : Store × ℕ × ℚ :=
  let A := aRefs.map (hRead s)
  let p := hAlloc s ((List.range aRefs.length).map (fun i => r.getD i 0 - 1 / 2))
  let s1 := hWrite p.1 p.2 (normalizeVec sq (hRead p.1 p.2))
  let q := powerLoopImp sq A iters s1 p.2
  let v := hRead q.1 q.2
  (q.1, q.2, dot v (matVecMul A v))

/- The row-by-row in-place writes of deflate. -/
def deflateRowsImp (lambda : ℚ) (v : List ℚ) (nrows : ℕ) :
    Store → List (ℕ × ℕ) → Store
  | s, [] => s
  | s, p :: rest =>
    deflateRowsImp lambda v nrows
      (hWrite s p.2 ((List.range nrows).map (fun j =>
        (hRead s p.2).getD j 0 - lambda * v.getD p.1 0 * v.getD j 0))) rest

/- deflate in the heap model: mutate every row of A in place. -/
def deflateImp (s : Store) (aRefs : List ℕ) (v : List ℚ) (lambda : ℚ) : Store :=
  deflateRowsImp lambda v aRefs.length s (List.zip (List.range aRefs.length) aRefs)

/- runPCA2D in the heap model, threading the store through the stages in
source order; returns the final store next to the result record. -/
def runPCA2DImp (sq : ℚ → ℚ) (s : Store) (refs : List ℕ) (r1 r2 : List ℚ) :
    Store × PCAResult :=
  if refs.length < 2 then (s, ⟨[], [], []⟩)
  else
    let rrefs := if refs.length > 400 then refs.drop (refs.length - 400) else refs
    let c := centerEmbeddingsImp s rrefs
    let g := gramMatrixImp c.1 c.2.2
    let e1 := powerIterationTop1Imp sq g.1 g.2 r1 90
    let s4 := deflateImp e1.1 g.2 (hRead e1.1 e1.2.1) e1.2.2
    let e2 := powerIterationTop1Imp sq s4 g.2 r2 90
    let U1 := hRead e2.1 e1.2.1
    let U2 := hRead e2.1 e2.2.1
    let s1v := sq (max 0 e1.2.2)
    let s2v := sq (max 0 e2.2.2)
    let Xc := c.2.2.map (hRead e2.1)
    (e2.1,
     ⟨(List.range rrefs.length).map (fun i =>
        (U1.getD i 0 * s1v, U2.getD i 0 * s2v)),
      hRead e2.1 c.2.1,
      computeComponents Xc [U1, U2] [s1v, s2v]⟩)

/- Frame predicate: the first n arrays of the original store are intact
and the store has only grown. -/
def FrameOK (n : ℕ) (s s' : Store) : Prop :=
  n ≤ s'.length ∧ ∀ a, a < n → List.getD s' a [] = List.getD s a []

/- Indexing a mapped range below the bound gives the mapped value. -/
theorem getD_map_range {α : Type} (f : ℕ → α) (d : α) {n i : ℕ} (hi : i < n) :
    ((List.range n).map f).getD i d = f i := by
  rw [List.getD_eq_getElem?_getD]
  simp [List.getElem?_map, List.getElem?_range hi]

/- Indexing a mapped range at or beyond the bound gives the default. -/
theorem getD_map_range_ge {α : Type} (f : ℕ → α) (d : α) {n i : ℕ} (hi : n ≤ i) :
    ((List.range n).map f).getD i d = d := by
  apply List.getD_eq_default
  simpa using hi

/- Indexing below the length is membership. -/
theorem getD_mem {α : Type} (l : List α) (d : α) {i : ℕ} (hi : i < l.length) :
    l.getD i d ∈ l := by
  rw [List.getD_eq_getElem?_getD, List.getElem?_eq_getElem hi]
  exact List.getElem_mem _

/- Sum of a function mapped over a range as a Finset sum. -/
theorem sum_map_range (f : ℕ → ℚ) (n : ℕ) :
    ((List.range n).map f).sum = ∑ i in Finset.range n, f i := by
  induction n with
  | zero => simp
  | succ m ih => simp [List.range_succ, Finset.sum_range_succ, ih]

/- A pairwise-accumulating foldl is the pair of sums. -/
theorem foldl_pair_sum (f g : ℕ → ℚ) :
    ∀ (l : List ℕ) (a b : ℚ),
      l.foldl (fun z i => (z.1 + f i, z.2 + g i)) (a, b) =
        (a + (l.map f).sum, b + (l.map g).sum) := by
  intro l
  induction l with
  | nil => intro a b; simp
  | cons x xs ih => intro a b; simp [ih, add_assoc]

/- dot as a Finset sum over the index range. -/
theorem dot_eq (a b : List ℚ) :
    dot a b = ∑ i in Finset.range a.length, a.getD i 0 * b.getD i 0 :=
  sum_map_range _ _

/- dot is symmetric on lists of equal length. -/
theorem dot_comm_of_length {a b : List ℚ} (h : a.length = b.length) :
    dot a b = dot b a := by
  rw [dot_eq, dot_eq, h]
  exact Finset.sum_congr rfl (fun _ _ => mul_comm _ _)

/- dot of a vector with itself is a sum of squares, hence nonnegative. -/
theorem dot_self_nonneg (v : List ℚ) : 0 ≤ dot v v := by
  rw [dot_eq]
  exact Finset.sum_nonneg (fun _ _ => mul_self_nonneg _)

/- normalizeVec preserves length. -/
theorem normalizeVec_length (sq : ℚ → ℚ) (v : List ℚ) :
    (normalizeVec sq v).length = v.length := by
  simp [normalizeVec]

/- matVecMul returns a vector of the matrix dimension. -/
theorem matVecMul_length (A : List (List ℚ)) (v : List ℚ) :
    (matVecMul A v).length = A.length := by
  simp [matVecMul]

/- The power-iteration loop keeps the dimension of the matrix. -/
theorem powerIterLoop_length (sq : ℚ → ℚ) (A : List (List ℚ)) :
    ∀ (t : ℕ) (v : List ℚ), v.length = A.length →
      (powerIterLoop sq A t v).length = A.length := by
  intro t
  induction t with
  | zero => intro v hv; simpa [powerIterLoop] using hv
  | succ m ih =>
    intro v _
    rw [powerIterLoop]
    exact ih _ (by simp [normalizeVec_length, matVecMul_length])

/- The vector returned by powerIterationTop1 has the matrix dimension. -/
theorem powerIterationTop1_v_length (sq : ℚ → ℚ) (A : List (List ℚ))
    (r : List ℚ) (iters : ℕ) :
    (powerIterationTop1 sq A r iters).v.length = A.length := by
  unfold powerIterationTop1
  exact powerIterLoop_length sq A iters _ (by simp [normalizeVec_length])

/- The retained window has length min N 400. -/
theorem pcaRetained_length (embeddings : List (List ℚ)) :
    (pcaRetained embeddings).length = min embeddings.length 400 := by
  unfold pcaRetained
  split <;> simp <;> omega

/- Every retained sample is one of the input samples. -/
theorem pcaRetained_mem {embeddings : List (List ℚ)} {v : List ℚ}
    (h : v ∈ pcaRetained embeddings) : v ∈ embeddings := by
  unfold pcaRetained at h
  split at h
  · exact List.drop_subset _ _ h
  · exact h

/- Unfolding runPCA2D on a non-null input with at least two samples. -/
theorem runPCA2D_some_eq (sq : ℚ → ℚ) (embeddings : List (List ℚ))
    (r1 r2 : List ℚ) (h2 : 2 ≤ embeddings.length) :
    runPCA2D sq (some embeddings) r1 r2 =
      ⟨(List.range (pcaRetained embeddings).length).map (fun i =>
          ((pcaE1 sq embeddings r1).v.getD i 0 * pcaS1 sq embeddings r1,
           (pcaE2 sq embeddings r1 r2).v.getD i 0 * pcaS2 sq embeddings r1 r2)),
       (pcaCenter embeddings).1,
       computeComponents (pcaCenter embeddings).2
         [(pcaE1 sq embeddings r1).v, (pcaE2 sq embeddings r1 r2).v]
         [pcaS1 sq embeddings r1, pcaS2 sq embeddings r1 r2]⟩ := by
  simp only [runPCA2D]
  rw [if_neg (by omega)]

/- headD is getD at index 0. -/
theorem headD_eq_getD_zero {α : Type} (l : List α) (d : α) :
    l.headD d = l.getD 0 d := by
  cases l <;> simp

/- headD of a nonempty list is a member. -/
theorem headD_mem {α : Type} {l : List α} (h : 0 < l.length) (d : α) :
    l.headD d ∈ l := by
  cases l with
  | nil => simp at h
  | cons x xs => simp

/- The mean has the dimension of the first row. -/
theorem centerEmbeddings_mean_length (embeddings : List (List ℚ)) :
    (centerEmbeddings embeddings).1.length = (embeddings.headD []).length := by
  simp [centerEmbeddings]

/- The centered matrix has one row per sample. -/
theorem centerEmbeddings_Xc_length (embeddings : List (List ℚ)) :
    (centerEmbeddings embeddings).2.length = embeddings.length := by
  simp [centerEmbeddings]

/- Entry d of the mean, for d below the dimension. -/
theorem centerEmbeddings_mean_getD (embeddings : List (List ℚ)) {d : ℕ}
    (hd : d < (embeddings.headD []).length) :
    (centerEmbeddings embeddings).1.getD d 0 =
      (∑ i in Finset.range embeddings.length, (embeddings.getD i []).getD d 0) /
        (embeddings.length : ℚ) := by
  simp only [centerEmbeddings]
  rw [getD_map_range _ _ hd, sum_map_range]

/- Entry d of the mean is the default 0 at or beyond the dimension. -/
theorem centerEmbeddings_mean_getD_ge (embeddings : List (List ℚ)) {d : ℕ}
    (hd : (embeddings.headD []).length ≤ d) :
    (centerEmbeddings embeddings).1.getD d 0 = 0 := by
  simp only [centerEmbeddings]
  rw [getD_map_range_ge _ _ hd]

/- Row i of the centered matrix, for i below the sample count. -/
theorem centerEmbeddings_Xc_row (embeddings : List (List ℚ)) {i : ℕ}
    (hi : i < embeddings.length) :
    (centerEmbeddings embeddings).2.getD i [] =
      (List.range (embeddings.headD []).length).map
        (fun d => (embeddings.getD i []).getD d 0 -
          (centerEmbeddings embeddings).1.getD d 0) := by
  conv_lhs => simp only [centerEmbeddings]
  rw [getD_map_range _ _ hi]
  simp only [centerEmbeddings]

/- computeComponents returns exactly two rows. -/
theorem computeComponents_length (Xc U2 : List (List ℚ)) (S2 : List ℚ) :
    (computeComponents Xc U2 S2).length = 2 := by
  simp [computeComponents]

/- Row k of computeComponents, for k < 2. -/
theorem computeComponents_row (Xc U2 : List (List ℚ)) (S2 : List ℚ) {k : ℕ}
    (hk : k < 2) :
    (computeComponents Xc U2 S2).getD k [] =
      (List.range (Xc.headD []).length).map (fun d =>
        (∑ i in Finset.range Xc.length,
          (U2.getD k []).getD i 0 * (Xc.getD i []).getD d 0) *
          (1 / (S2.getD k 0 + eps))) := by
  simp only [computeComponents]
  rw [getD_map_range _ _ hk]
  simp only [sum_map_range]

/- Retaining keeps at least two samples when there are at least two. -/
theorem pcaRetained_two_le {embeddings : List (List ℚ)}
    (h2 : 2 ≤ embeddings.length) : 2 ≤ (pcaRetained embeddings).length := by
  rw [pcaRetained_length]
  omega

/- The first retained row has the common dimension D. -/
theorem pcaRetained_headD_length {embeddings : List (List ℚ)} {D : ℕ}
    (h2 : 2 ≤ embeddings.length) (hD : ∀ v ∈ embeddings, v.length = D) :
    ((pcaRetained embeddings).headD []).length = D :=
  hD _ (pcaRetained_mem (headD_mem (by have := pcaRetained_two_le h2; omega) []))

/- Every row of the centered matrix of the retained window has length D. -/
theorem pcaCenter_Xc_headD_length {embeddings : List (List ℚ)} {D : ℕ}
    (h2 : 2 ≤ embeddings.length) (hD : ∀ v ∈ embeddings, v.length = D) :
    (((pcaCenter embeddings).2).headD []).length = D := by
  have hpos : 0 < (pcaRetained embeddings).length := by
    have := pcaRetained_two_le h2; omega
  rw [headD_eq_getD_zero, pcaCenter,
    centerEmbeddings_Xc_row (pcaRetained embeddings) hpos,
    List.length_map, List.length_range]
  exact pcaRetained_headD_length h2 hD

/-- C5: for every input with fewer than 2 samples, including the empty
sequence and a single-vector sequence, runPCA2D returns the empty-result
sentinel with empty points2d, mean and components, and being a total
function it raises no error. -/
theorem runPCA2D_insufficientData (sq : ℚ → ℚ) (embeddings : List (List ℚ))
    (r1 r2 : List ℚ) (h : embeddings.length < 2) :
    runPCA2D sq (some embeddings) r1 r2 = ⟨[], [], []⟩ := by
  simp only [runPCA2D]
  rw [if_pos h]

/-- Witness for C5 at the empty sequence and at a one-vector sequence. -/
theorem runPCA2D_insufficientData_witness :
    runPCA2D zeroSqrt (some []) [] [] = ⟨[], [], []⟩ ∧
    runPCA2D zeroSqrt (some [[5]]) [] [] = ⟨[], [], []⟩ :=
  ⟨runPCA2D_insufficientData zeroSqrt [] [] [] (by simp),
   runPCA2D_insufficientData zeroSqrt [[5]] [] [] (by simp)⟩

/-- C8: runPCA2D applied to a null samples argument returns the
empty-result sentinel instead of failing. -/
theorem runPCA2D_nullInput (sq : ℚ → ℚ) (r1 r2 : List ℚ) :
    runPCA2D sq none r1 r2 = ⟨[], [], []⟩ := rfl

/-- C2 counterexample: a uniform-dimension input of 401 samples yields
points2d of length 400, not 401, so the output shape claim fails as
stated for every N of at least 2. -/
theorem runPCA2D_shape_counterexample :
    (List.replicate 401 ([0] : List ℚ)).length = 401 ∧
    (runPCA2D zeroSqrt (some (List.replicate 401 ([0] : List ℚ))) [] []).points2d.length = 400 ∧
    (400 : ℕ) ≠ 401 := by
  refine ⟨by rw [List.length_replicate], ?_, by omega⟩
  rw [runPCA2D_some_eq _ _ _ _ (by rw [List.length_replicate]; omega)]
  rw [List.length_map, List.length_range, pcaRetained_length, List.length_replicate]
  omega

/-- C2 (amended): for N at least 2 samples of uniform dimension D,
runPCA2D returns points2d of length min N 400 (N when N is at most the
400-sample retention cap), mean of length D, and components consisting of
exactly two vectors each of length D. -/
theorem runPCA2D_shape (sq : ℚ → ℚ) (embeddings : List (List ℚ))
    (r1 r2 : List ℚ) (D : ℕ) (h2 : 2 ≤ embeddings.length)
    (hD : ∀ v ∈ embeddings, v.length = D) :
    (runPCA2D sq (some embeddings) r1 r2).points2d.length = min embeddings.length 400 ∧
    (runPCA2D sq (some embeddings) r1 r2).mean.length = D ∧
    (runPCA2D sq (some embeddings) r1 r2).components.length = 2 ∧
    ((runPCA2D sq (some embeddings) r1 r2).components.getD 0 []).length = D ∧
    ((runPCA2D sq (some embeddings) r1 r2).components.getD 1 []).length = D := by
  rw [runPCA2D_some_eq _ _ _ _ h2]
  refine ⟨by simp [pcaRetained_length], ?_, by simp [computeComponents_length], ?_, ?_⟩
  · rw [pcaCenter, centerEmbeddings_mean_length]
    exact pcaRetained_headD_length h2 hD
  · rw [computeComponents_row _ _ _ (by omega), List.length_map, List.length_range]
    exact pcaCenter_Xc_headD_length h2 hD
  · rw [computeComponents_row _ _ _ (by omega), List.length_map, List.length_range]
    exact pcaCenter_Xc_headD_length h2 hD

/-- Witness for the amended C2 at a concrete two-sample input of
dimension one. -/
theorem runPCA2D_shape_witness :
    (runPCA2D zeroSqrt (some [[1], [2]]) [] []).points2d.length = min 2 400 ∧
    (runPCA2D zeroSqrt (some [[1], [2]]) [] []).mean.length = 1 ∧
    (runPCA2D zeroSqrt (some [[1], [2]]) [] []).components.length = 2 ∧
    ((runPCA2D zeroSqrt (some [[1], [2]]) [] []).components.getD 0 []).length = 1 ∧
    ((runPCA2D zeroSqrt (some [[1], [2]]) [] []).components.getD 1 []).length = 1 :=
  runPCA2D_shape zeroSqrt [[1], [2]] [] [] 1 (by simp) (by decide)

/- Two inputs with the same retained window give the same runPCA2D
result: every stage of the pipeline reads the samples only through
pcaRetained. -/
theorem runPCA2D_congr_retained (sq : ℚ → ℚ) {a b : List (List ℚ)}
    (r1 r2 : List ℚ) (h2a : 2 ≤ a.length) (h2b : 2 ≤ b.length)
    (h : pcaRetained a = pcaRetained b) :
    runPCA2D sq (some a) r1 r2 = runPCA2D sq (some b) r1 r2 := by
  rw [runPCA2D_some_eq _ _ _ _ h2a, runPCA2D_some_eq _ _ _ _ h2b]
  simp only [pcaE1, pcaE2, pcaS1, pcaS2, pcaLambda1, pcaLambda2, pcaDeflated,
    pcaGram, pcaCenter, h]

/- A 100-sample prefix in front of a 400-sample window is dropped whole
by the retention cap. -/
theorem pcaRetained_append_eq {recent : List (List ℚ)}
    (hrec : recent.length = 400) :
    ∀ o : List (List ℚ), o.length = 100 → pcaRetained (o ++ recent) = recent := by
  intro o ho
  unfold pcaRetained
  rw [if_pos (by rw [List.length_append]; omega)]
  have hc : (o ++ recent).length - 400 = o.length := by
    rw [List.length_append]; omega
  rw [hc, List.drop_left]

/-- C3: for more than 400 input samples, runPCA2D computes its whole
result from only the most recent 400 samples: the run equals the run on
the last 400 alone, and with 500 samples the oldest 100 can be replaced
arbitrarily without changing the result, so they have no influence on
the returned mean or components. -/
theorem runPCA2D_slidingWindow (sq : ℚ → ℚ)
    (embeddings old old' recent : List (List ℚ)) (r1 r2 : List ℚ)
    (hN : 400 < embeddings.length) (hold : old.length = 100)
    (hold' : old'.length = 100) (hrec : recent.length = 400) :
    runPCA2D sq (some embeddings) r1 r2 =
      runPCA2D sq (some (embeddings.drop (embeddings.length - 400))) r1 r2 ∧
    runPCA2D sq (some (old ++ recent)) r1 r2 =
      runPCA2D sq (some (old' ++ recent)) r1 r2 := by
  constructor
  · have hlen : (embeddings.drop (embeddings.length - 400)).length = 400 := by
      rw [List.length_drop]; omega
    refine runPCA2D_congr_retained sq r1 r2 (by omega) (by omega) ?_
    unfold pcaRetained
    rw [if_pos hN, if_neg (by rw [List.length_drop]; omega)]
  · refine runPCA2D_congr_retained sq r1 r2
      (by rw [List.length_append]; omega) (by rw [List.length_append]; omega) ?_
    rw [pcaRetained_append_eq hrec old hold, pcaRetained_append_eq hrec old' hold']

/-- Witness for C3 at a concrete 500-sample input: replacing the oldest
100 samples leaves the run unchanged, and the run equals the run on the
most recent 400 samples. -/
theorem runPCA2D_slidingWindow_witness :
    runPCA2D zeroSqrt (some (List.replicate 500 ([1] : List ℚ))) [] [] =
      runPCA2D zeroSqrt
        (some ((List.replicate 500 ([1] : List ℚ)).drop
          ((List.replicate 500 ([1] : List ℚ)).length - 400))) [] [] ∧
    runPCA2D zeroSqrt
        (some (List.replicate 100 ([1] : List ℚ) ++ List.replicate 400 ([3] : List ℚ))) [] [] =
      runPCA2D zeroSqrt
        (some (List.replicate 100 ([2] : List ℚ) ++ List.replicate 400 ([3] : List ℚ))) [] [] :=
  runPCA2D_slidingWindow zeroSqrt (List.replicate 500 [1])
    (List.replicate 100 [1]) (List.replicate 100 [2]) (List.replicate 400 [3]) [] []
    (by rw [List.length_replicate]; omega) (by rw [List.length_replicate])
    (by rw [List.length_replicate]) (by rw [List.length_replicate])

/- projectWithPCA on present arguments with exactly two axes returns the
pair of centered inner products. -/
theorem projectWithPCA_some_eq (e m : List ℚ) (cs : List (List ℚ))
    (h2 : cs.length = 2) :
    projectWithPCA (some e) (some m) (some cs) = some
      (∑ d in Finset.range e.length,
        (e.getD d 0 - m.getD d 0) * (cs.getD 0 []).getD d 0,
       ∑ d in Finset.range e.length,
        (e.getD d 0 - m.getD d 0) * (cs.getD 1 []).getD d 0) := by
  simp only [projectWithPCA]
  rw [if_pos h2, foldl_pair_sum
    (fun i => (e.getD i 0 - m.getD i 0) * (cs.getD 0 []).getD i 0)
    (fun i => (e.getD i 0 - m.getD i 0) * (cs.getD 1 []).getD i 0)]
  simp [sum_map_range]

/-- C4: projectWithPCA returns null exactly when the feature vector, the
mean, or the components argument is absent, or when components does not
hold exactly two axes (the fourth disjunct is length of co.getD [] so it
also covers counts 0, 1 and 3); and on present arguments with exactly two
axes it returns, for each axis k, the sum over d below the feature
dimension of (featureVector[d] - mean[d]) * components[k][d], where a
missing coordinate of mean or of a component row is read as zero. -/
theorem projectWithPCA_contract (eo mo : Option (List ℚ))
    (co : Option (List (List ℚ))) (e m : List ℚ) (cs : List (List ℚ))
    (h2 : cs.length = 2) :
    (projectWithPCA eo mo co = none ↔
      eo = none ∨ mo = none ∨ co = none ∨ (co.getD []).length ≠ 2) ∧
    projectWithPCA (some e) (some m) (some cs) = some
      (∑ d in Finset.range e.length,
        (e.getD d 0 - m.getD d 0) * (cs.getD 0 []).getD d 0,
       ∑ d in Finset.range e.length,
        (e.getD d 0 - m.getD d 0) * (cs.getD 1 []).getD d 0) := by
  constructor
  · rcases eo with _ | e'
    · simp [projectWithPCA]
    rcases mo with _ | m'
    · simp [projectWithPCA]
    rcases co with _ | cs'
    · simp [projectWithPCA]
    by_cases hl : cs'.length = 2
    · simp [projectWithPCA, hl]
    · simp [projectWithPCA, hl]
  · exact projectWithPCA_some_eq e m cs h2

/-- Witness for C4: a component list of three axes yields null, and a
concrete in-range projection returns the pair of sums. -/
theorem projectWithPCA_contract_witness :
    (projectWithPCA (some [1]) (some [0]) (some [[1], [2], [3]]) = none ↔
      (some [1] : Option (List ℚ)) = none ∨ (some [0] : Option (List ℚ)) = none ∨
      (some [[1], [2], [3]] : Option (List (List ℚ))) = none ∨
      ((some [[1], [2], [3]] : Option (List (List ℚ))).getD []).length ≠ 2) ∧
    projectWithPCA (some [1, 2]) (some [3]) (some [[10, 20], [30]]) = some
      (∑ d in Finset.range ([1, 2] : List ℚ).length,
        (([1, 2] : List ℚ).getD d 0 - ([3] : List ℚ).getD d 0) *
          (([[10, 20], [30]] : List (List ℚ)).getD 0 []).getD d 0,
       ∑ d in Finset.range ([1, 2] : List ℚ).length,
        (([1, 2] : List ℚ).getD d 0 - ([3] : List ℚ).getD d 0) *
          (([[10, 20], [30]] : List (List ℚ)).getD 1 []).getD d 0) :=
  projectWithPCA_contract (some [1]) (some [0]) (some [[1], [2], [3]])
    [1, 2] [3] [[10, 20], [30]] (by decide)

/- normalizeVec queries the sqrt oracle only at dot v v, which is
nonnegative, so oracles agreeing on nonnegative inputs normalize alike. -/
theorem normalizeVec_congr {sq sq' : ℚ → ℚ}
    (h : ∀ x, 0 ≤ x → sq x = sq' x) (v : List ℚ) :
    normalizeVec sq v = normalizeVec sq' v := by
  unfold normalizeVec nrm
  rw [h _ (dot_self_nonneg v)]

/- The power-iteration loop queries the sqrt oracle only inside
normalizeVec, always at nonnegative inputs. -/
theorem powerIterLoop_congr {sq sq' : ℚ → ℚ}
    (h : ∀ x, 0 ≤ x → sq x = sq' x) (A : List (List ℚ)) :
    ∀ (t : ℕ) (v : List ℚ), powerIterLoop sq A t v = powerIterLoop sq' A t v := by
  intro t
  induction t with
  | zero => intro v; rfl
  | succ m ih =>
    intro v
    rw [powerIterLoop, powerIterLoop, normalizeVec_congr h, ih]

/- powerIterationTop1 queries the sqrt oracle only at nonnegative
inputs. -/
theorem powerIterationTop1_congr {sq sq' : ℚ → ℚ}
    (h : ∀ x, 0 ≤ x → sq x = sq' x) (A : List (List ℚ)) (r : List ℚ)
    (iters : ℕ) :
    powerIterationTop1 sq A r iters = powerIterationTop1 sq' A r iters := by
  unfold powerIterationTop1
  simp only [normalizeVec_congr h, powerIterLoop_congr h]

/-- C6: both eigenvalue estimates of runPCA2D are clamped to a minimum of
zero before the square root is taken (the clamped values pcaLambda1 and
pcaLambda2 are nonnegative for every input, even when the raw power
iteration or deflation estimate is negative), so the singular values s1
and s2 are nonnegative whenever the sqrt oracle is nonnegative on
nonnegative inputs; moreover s1 and s2 depend only on the oracle's values
at nonnegative arguments, so Math.sqrt is never applied to a negative
number anywhere in the pipeline and no NaN can arise from it. -/
theorem runPCA2D_eigClamp (sq sq' : ℚ → ℚ) (embeddings : List (List ℚ))
    (r1 r2 : List ℚ) (hpos : ∀ x, 0 ≤ x → 0 ≤ sq x)
    (hagree : ∀ x, 0 ≤ x → sq x = sq' x) :
    0 ≤ pcaLambda1 sq embeddings r1 ∧
    0 ≤ pcaLambda2 sq embeddings r1 r2 ∧
    0 ≤ pcaS1 sq embeddings r1 ∧
    0 ≤ pcaS2 sq embeddings r1 r2 ∧
    pcaS1 sq embeddings r1 = pcaS1 sq' embeddings r1 ∧
    pcaS2 sq embeddings r1 r2 = pcaS2 sq' embeddings r1 r2 := by
  have h1 : pcaE1 sq embeddings r1 = pcaE1 sq' embeddings r1 :=
    powerIterationTop1_congr hagree _ _ _
  have h2 : pcaE2 sq embeddings r1 r2 = pcaE2 sq' embeddings r1 r2 := by
    unfold pcaE2 pcaDeflated
    rw [h1, powerIterationTop1_congr hagree]
  refine ⟨le_max_left 0 _, le_max_left 0 _,
    hpos _ (le_max_left 0 _), hpos _ (le_max_left 0 _), ?_, ?_⟩
  · unfold pcaS1 pcaLambda1
    rw [h1, hagree _ (le_max_left 0 _)]
  · unfold pcaS2 pcaLambda2
    rw [h2, hagree _ (le_max_left 0 _)]

/-- Witness for C6 with the zero oracle against an oracle differing on
negative inputs, at a concrete two-sample input. -/
theorem runPCA2D_eigClamp_witness :
    0 ≤ pcaLambda1 zeroSqrt [[1], [2]] [1] ∧
    0 ≤ pcaLambda2 zeroSqrt [[1], [2]] [1] [1] ∧
    0 ≤ pcaS1 zeroSqrt [[1], [2]] [1] ∧
    0 ≤ pcaS2 zeroSqrt [[1], [2]] [1] [1] ∧
    pcaS1 zeroSqrt [[1], [2]] [1] = pcaS1 negProbe [[1], [2]] [1] ∧
    pcaS2 zeroSqrt [[1], [2]] [1] [1] = pcaS2 negProbe [[1], [2]] [1] [1] :=
  runPCA2D_eigClamp zeroSqrt negProbe [[1], [2]] [1] [1]
    (fun _ _ => le_refl 0) (fun _ hx => (if_pos hx).symm)

/-- C7: the mean returned by runPCA2D is the per-coordinate arithmetic
mean of the retained (at most 400 most recent) samples, and for every
coordinate d the mean of the centered values samples[i][d] - mean[d] over
the retained samples is exactly zero. -/
theorem runPCA2D_centering (sq : ℚ → ℚ) (embeddings : List (List ℚ))
    (r1 r2 : List ℚ) (D d : ℕ) (h2 : 2 ≤ embeddings.length)
    (hD : ∀ v ∈ embeddings, v.length = D) :
    (runPCA2D sq (some embeddings) r1 r2).mean =
      (List.range D).map (fun c =>
        (∑ i in Finset.range (pcaRetained embeddings).length,
          ((pcaRetained embeddings).getD i []).getD c 0) /
          ((pcaRetained embeddings).length : ℚ)) ∧
    (∑ i in Finset.range (pcaRetained embeddings).length,
        (((pcaRetained embeddings).getD i []).getD d 0 -
          (runPCA2D sq (some embeddings) r1 r2).mean.getD d 0)) /
      ((pcaRetained embeddings).length : ℚ) = 0 := by
  have hhead := pcaRetained_headD_length h2 hD
  have hNr := pcaRetained_two_le h2
  have hmean : (runPCA2D sq (some embeddings) r1 r2).mean =
      (pcaCenter embeddings).1 := by
    rw [runPCA2D_some_eq _ _ _ _ h2]
  have hpart1 : (runPCA2D sq (some embeddings) r1 r2).mean =
      (List.range D).map (fun c =>
        (∑ i in Finset.range (pcaRetained embeddings).length,
          ((pcaRetained embeddings).getD i []).getD c 0) /
          ((pcaRetained embeddings).length : ℚ)) := by
    rw [hmean, pcaCenter]
    conv_lhs => simp only [centerEmbeddings]
    rw [hhead]
    simp only [sum_map_range]
  refine ⟨hpart1, ?_⟩
  rw [hmean, pcaCenter]
  have hz : (∑ i in Finset.range (pcaRetained embeddings).length,
      (((pcaRetained embeddings).getD i []).getD d 0 -
        (centerEmbeddings (pcaRetained embeddings)).1.getD d 0)) = 0 := by
    by_cases hd : d < D
    · rw [Finset.sum_sub_distrib, Finset.sum_const, Finset.card_range,
        centerEmbeddings_mean_getD _ (by rw [hhead]; exact hd), nsmul_eq_mul,
        mul_div_cancel₀]
      · ring
      · exact Nat.cast_ne_zero.mpr (by omega)
    · push_neg at hd
      have hmean0 : (centerEmbeddings (pcaRetained embeddings)).1.getD d 0 = 0 :=
        centerEmbeddings_mean_getD_ge _ (by rw [hhead]; exact hd)
      rw [hmean0]
      refine Finset.sum_eq_zero (fun i hi => ?_)
      have hrow : ((pcaRetained embeddings).getD i []).getD d 0 = 0 := by
        apply List.getD_eq_default
        rw [hD _ (pcaRetained_mem (getD_mem _ [] (Finset.mem_range.mp hi)))]
        exact hd
      rw [hrow]
      ring
  rw [hz, zero_div]

/-- Witness for C7 at two one-dimensional samples. -/
theorem runPCA2D_centering_witness :
    (runPCA2D zeroSqrt (some [[1], [3]]) [] []).mean =
      (List.range 1).map (fun c =>
        (∑ i in Finset.range (pcaRetained [[1], [3]]).length,
          ((pcaRetained [[1], [3]]).getD i []).getD c 0) /
          ((pcaRetained [[1], [3]]).length : ℚ)) ∧
    (∑ i in Finset.range (pcaRetained [[1], [3]]).length,
        (((pcaRetained [[1], [3]]).getD i []).getD 0 0 -
          (runPCA2D zeroSqrt (some [[1], [3]]) [] []).mean.getD 0 0)) /
      ((pcaRetained [[1], [3]]).length : ℚ) = 0 :=
  runPCA2D_centering zeroSqrt [[1], [3]] [] [] 1 0 (by simp) (by decide)

/- gramMatrix is square of the sample dimension. -/
theorem gramMatrix_length (Xc : List (List ℚ)) :
    (gramMatrix Xc).length = Xc.length := by
  simp [gramMatrix]

/- Every entry of the Gram matrix is the dot of the two rows, using
symmetry of dot on the mirrored lower triangle. -/
theorem gramMatrix_getD {Xc : List (List ℚ)} {D i j : ℕ}
    (hi : i < Xc.length) (hj : j < Xc.length)
    (hrows : ∀ row ∈ Xc, row.length = D) :
    ((gramMatrix Xc).getD i []).getD j 0 = dot (Xc.getD i []) (Xc.getD j []) := by
  unfold gramMatrix
  rw [getD_map_range _ _ hi, getD_map_range _ _ hj]
  split
  · rfl
  · exact dot_comm_of_length (by
      rw [hrows _ (getD_mem _ [] hj), hrows _ (getD_mem _ [] hi)])

/- Every row of the centered matrix has the dimension of the first
sample. -/
theorem centerEmbeddings_Xc_mem_length (embeddings : List (List ℚ)) :
    ∀ row ∈ (centerEmbeddings embeddings).2,
      row.length = (embeddings.headD []).length := by
  intro row hrow
  simp only [centerEmbeddings] at hrow
  obtain ⟨i, _, hrw⟩ := List.mem_map.mp hrow
  rw [← hrw]
  simp

/- The centered matrix of the retained window has rows of length D. -/
theorem pcaCenter_Xc_rows_length {embeddings : List (List ℚ)} {D : ℕ}
    (h2 : 2 ≤ embeddings.length) (hD : ∀ v ∈ embeddings, v.length = D) :
    ∀ row ∈ (pcaCenter embeddings).2, row.length = D := by
  intro row hrow
  rw [pcaCenter] at hrow
  rw [centerEmbeddings_Xc_mem_length _ _ hrow]
  exact pcaRetained_headD_length h2 hD

/- The centered matrix of the retained window has one row per retained
sample. -/
theorem pcaCenter_Xc_length (embeddings : List (List ℚ)) :
    (pcaCenter embeddings).2.length = (pcaRetained embeddings).length :=
  centerEmbeddings_Xc_length _

/- Entry i of a matrix-vector product, for i below the dimension. -/
theorem matVecMul_getD {A : List (List ℚ)} (v : List ℚ) {i : ℕ}
    (hi : i < A.length) :
    (matVecMul A v).getD i 0 =
      ∑ j in Finset.range A.length, (A.getD i []).getD j 0 * v.getD j 0 := by
  unfold matVecMul
  rw [getD_map_range _ _ hi, sum_map_range]

/- Reading a scalar-multiplied list at any index, with default 0. -/
theorem getD_map_mul_zero (c : ℚ) (l : List ℚ) (i : ℕ) :
    (l.map (fun x => c * x)).getD i 0 = c * l.getD i 0 := by
  rw [List.getD_eq_getElem?_getD, List.getD_eq_getElem?_getD, List.getElem?_map]
  rcases h : l[i]? with _ | x
  · simp
  · simp

/- The epsilon guard in the reconstruction denominator shifts a score by
at most eps times the eigenvector entry: for s nonnegative with square
lam, lam * u / (s + eps) is within eps * the size of u of u * s. -/
theorem axis_bound (u lam s : ℚ) (hs : 0 ≤ s) (hssq : s ^ 2 = lam) :
    |lam * u * (1 / (s + eps)) - u * s| ≤ eps * |u| := by
  have heps : (0 : ℚ) < eps := by norm_num [eps]
  have hse : 0 < s + eps := by linarith
  have hrw : lam * u * (1 / (s + eps)) - u * s = -(u * (s * eps) / (s + eps)) := by
    rw [← hssq]
    field_simp
    ring
  rw [hrw, abs_neg, abs_div, abs_of_pos hse, div_le_iff₀ hse, abs_mul,
    abs_of_nonneg (mul_nonneg hs heps.le)]
  nlinarith [abs_nonneg u, mul_nonneg (mul_nonneg heps.le heps.le) (abs_nonneg u)]

/- The centered entry at a coordinate below D is the sample entry minus
the mean entry. -/
theorem pcaCenter_Xc_entry {embeddings : List (List ℚ)} {D i d : ℕ}
    (h2 : 2 ≤ embeddings.length) (hD : ∀ v ∈ embeddings, v.length = D)
    (hi : i < (pcaRetained embeddings).length) (hd : d < D) :
    ((pcaCenter embeddings).2.getD i []).getD d 0 =
      ((pcaRetained embeddings).getD i []).getD d 0 -
        (pcaCenter embeddings).1.getD d 0 := by
  rw [pcaCenter, centerEmbeddings_Xc_row _ hi,
    getD_map_range _ _ (by rw [pcaRetained_headD_length h2 hD]; exact hd)]

/- Core identity of the round-trip law: projecting retained sample i onto
the reconstructed axis built from vector U and scale divisor s + eps
yields lam * U[i] / (s + eps), whenever U is an exact eigenvector of the
Gram matrix with eigenvalue lam. -/
theorem roundTrip_sum (embeddings : List (List ℚ)) {D i : ℕ} (U : List ℚ)
    (lam s : ℚ) (h2 : 2 ≤ embeddings.length)
    (hD : ∀ v ∈ embeddings, v.length = D)
    (hi : i < (pcaRetained embeddings).length)
    (hU : matVecMul (pcaGram embeddings) U = U.map (fun x => lam * x)) :
    (∑ d in Finset.range D,
      (((pcaRetained embeddings).getD i []).getD d 0 -
        (pcaCenter embeddings).1.getD d 0) *
      (((List.range D).map (fun c =>
        (∑ j in Finset.range (pcaRetained embeddings).length,
          U.getD j 0 * (((pcaCenter embeddings).2).getD j []).getD c 0) *
        (1 / (s + eps)))).getD d 0)) =
    lam * U.getD i 0 * (1 / (s + eps)) := by
  have hXlen := pcaCenter_Xc_length embeddings
  have hrows := pcaCenter_Xc_rows_length h2 hD
  have hi' : i < (pcaCenter embeddings).2.length := by rw [hXlen]; exact hi
  have hG : (pcaGram embeddings).length = (pcaCenter embeddings).2.length := by
    rw [pcaGram, gramMatrix_length]
  have hterm : ∀ d ∈ Finset.range D,
      (((pcaRetained embeddings).getD i []).getD d 0 -
        (pcaCenter embeddings).1.getD d 0) *
      (((List.range D).map (fun c =>
        (∑ j in Finset.range (pcaRetained embeddings).length,
          U.getD j 0 * (((pcaCenter embeddings).2).getD j []).getD c 0) *
        (1 / (s + eps)))).getD d 0) =
      ∑ j in Finset.range (pcaRetained embeddings).length,
        (U.getD j 0 * (1 / (s + eps))) *
        ((((pcaCenter embeddings).2).getD i []).getD d 0 *
          (((pcaCenter embeddings).2).getD j []).getD d 0) := by
    intro d hd
    rw [getD_map_range _ _ (Finset.mem_range.mp hd),
      ← pcaCenter_Xc_entry h2 hD hi (Finset.mem_range.mp hd),
      Finset.sum_mul, Finset.mul_sum]
    exact Finset.sum_congr rfl (fun j _ => by ring)
  rw [Finset.sum_congr rfl hterm, Finset.sum_comm]
  have hinner : ∀ j ∈ Finset.range (pcaRetained embeddings).length,
      (∑ d in Finset.range D,
        (U.getD j 0 * (1 / (s + eps))) *
        ((((pcaCenter embeddings).2).getD i []).getD d 0 *
          (((pcaCenter embeddings).2).getD j []).getD d 0)) =
      ((pcaGram embeddings).getD i []).getD j 0 * U.getD j 0 * (1 / (s + eps)) := by
    intro j hj
    have hj' : j < (pcaCenter embeddings).2.length := by
      rw [hXlen]; exact Finset.mem_range.mp hj
    have hdot : dot ((pcaCenter embeddings).2.getD i [])
        ((pcaCenter embeddings).2.getD j []) =
        ∑ d in Finset.range D,
          (((pcaCenter embeddings).2).getD i []).getD d 0 *
          (((pcaCenter embeddings).2).getD j []).getD d 0 := by
      rw [dot_eq, hrows _ (getD_mem _ [] hi')]
    rw [← Finset.mul_sum, ← hdot, ← gramMatrix_getD hi' hj' hrows]
    rw [show gramMatrix (pcaCenter embeddings).2 = pcaGram embeddings from rfl]
    ring
  rw [Finset.sum_congr rfl hinner]
  have hmv : (matVecMul (pcaGram embeddings) U).getD i 0 =
      ∑ j in Finset.range (pcaGram embeddings).length,
        ((pcaGram embeddings).getD i []).getD j 0 * U.getD j 0 :=
    matVecMul_getD U (by rw [hG]; exact hi')
  rw [hG, hXlen] at hmv
  calc ∑ j in Finset.range (pcaRetained embeddings).length,
        ((pcaGram embeddings).getD i []).getD j 0 * U.getD j 0 * (1 / (s + eps))
      = (∑ j in Finset.range (pcaRetained embeddings).length,
          ((pcaGram embeddings).getD i []).getD j 0 * U.getD j 0) *
          (1 / (s + eps)) := by rw [Finset.sum_mul]
    _ = (matVecMul (pcaGram embeddings) U).getD i 0 * (1 / (s + eps)) := by
          rw [hmv]
    _ = (U.map (fun x => lam * x)).getD i 0 * (1 / (s + eps)) := by rw [hU]
    _ = lam * U.getD i 0 * (1 / (s + eps)) := by rw [getD_map_mul_zero]

/- Round-trip along one axis: the projection of retained sample i onto
reconstructed component k is within eps times the eigenvector entry of
the score U[i] * s, whenever U is an exact eigenpair of the Gram matrix
and s is the exact square root of its eigenvalue. -/
theorem roundTrip_axis (embeddings : List (List ℚ)) (Us : List (List ℚ))
    (Ss : List ℚ) {D i k : ℕ} (U : List ℚ) (lam s : ℚ)
    (h2 : 2 ≤ embeddings.length) (hD : ∀ v ∈ embeddings, v.length = D)
    (hi : i < (pcaRetained embeddings).length) (hk : k < 2)
    (hUs : Us.getD k [] = U) (hSs : Ss.getD k 0 = s)
    (hU : matVecMul (pcaGram embeddings) U = U.map (fun x => lam * x))
    (hs : 0 ≤ s) (hssq : s ^ 2 = lam) :
    |(∑ d in Finset.range ((pcaRetained embeddings).getD i []).length,
        (((pcaRetained embeddings).getD i []).getD d 0 -
          (pcaCenter embeddings).1.getD d 0) *
        ((computeComponents (pcaCenter embeddings).2 Us Ss).getD k []).getD d 0) -
      U.getD i 0 * s| ≤ eps * |U.getD i 0| := by
  have hxlen : ((pcaRetained embeddings).getD i []).length = D :=
    hD _ (pcaRetained_mem (getD_mem _ [] hi))
  rw [computeComponents_row _ _ _ hk, pcaCenter_Xc_headD_length h2 hD,
    pcaCenter_Xc_length, hUs, hSs, hxlen,
    roundTrip_sum embeddings U lam s h2 hD hi hU]
  exact axis_bound _ lam s hs hssq

/-- C1: round-trip law. For a basis built by runPCA2D from at least two
samples of uniform dimension D, and any retained sample index i, feeding
samples[i] with the returned mean and components to projectWithPCA yields
a non-null pair whose coordinates agree with points2d[i] up to the
numerical tolerance eps times the corresponding eigenvector entry, under
the idealised-eigensolver reading of the tolerance: the power-iteration
outputs are exact eigenpairs of the Gram matrix and the sqrt oracle is
exact on the two clamped eigenvalues. The same eigenvectors appear on
both sides, so the bound holds for either sign convention of each axis. -/
theorem runPCA2D_roundTrip (sq : ℚ → ℚ) (embeddings : List (List ℚ))
    (r1 r2 : List ℚ) (D i : ℕ) (h2 : 2 ≤ embeddings.length)
    (hD : ∀ v ∈ embeddings, v.length = D)
    (hi : i < (pcaRetained embeddings).length)
    (hU1 : matVecMul (pcaGram embeddings) (pcaE1 sq embeddings r1).v =
      (pcaE1 sq embeddings r1).v.map (fun x => (pcaE1 sq embeddings r1).lambda * x))
    (hU2 : matVecMul (pcaGram embeddings) (pcaE2 sq embeddings r1 r2).v =
      (pcaE2 sq embeddings r1 r2).v.map (fun x => (pcaE2 sq embeddings r1 r2).lambda * x))
    (hs1 : 0 ≤ pcaS1 sq embeddings r1)
    (hs1sq : pcaS1 sq embeddings r1 ^ 2 = (pcaE1 sq embeddings r1).lambda)
    (hs2 : 0 ≤ pcaS2 sq embeddings r1 r2)
    (hs2sq : pcaS2 sq embeddings r1 r2 ^ 2 = (pcaE2 sq embeddings r1 r2).lambda) :
    projectWithPCA (some ((pcaRetained embeddings).getD i []))
        (some (runPCA2D sq (some embeddings) r1 r2).mean)
        (some (runPCA2D sq (some embeddings) r1 r2).components) ≠ none ∧
    |((projectWithPCA (some ((pcaRetained embeddings).getD i []))
        (some (runPCA2D sq (some embeddings) r1 r2).mean)
        (some (runPCA2D sq (some embeddings) r1 r2).components)).getD (0, 0)).1 -
      ((runPCA2D sq (some embeddings) r1 r2).points2d.getD i (0, 0)).1| ≤
      eps * |(pcaE1 sq embeddings r1).v.getD i 0| ∧
    |((projectWithPCA (some ((pcaRetained embeddings).getD i []))
        (some (runPCA2D sq (some embeddings) r1 r2).mean)
        (some (runPCA2D sq (some embeddings) r1 r2).components)).getD (0, 0)).2 -
      ((runPCA2D sq (some embeddings) r1 r2).points2d.getD i (0, 0)).2| ≤
      eps * |(pcaE2 sq embeddings r1 r2).v.getD i 0| := by
  simp only [runPCA2D_some_eq sq embeddings r1 r2 h2]
  rw [projectWithPCA_some_eq _ _ _ (computeComponents_length _ _ _)]
  refine ⟨by simp, ?_, ?_⟩
  · simp only [Option.getD_some]
    rw [getD_map_range _ _ hi]
    exact roundTrip_axis embeddings
      [(pcaE1 sq embeddings r1).v, (pcaE2 sq embeddings r1 r2).v]
      [pcaS1 sq embeddings r1, pcaS2 sq embeddings r1 r2]
      (pcaE1 sq embeddings r1).v (pcaE1 sq embeddings r1).lambda
      (pcaS1 sq embeddings r1) h2 hD hi (by omega) rfl rfl hU1 hs1 hs1sq
  · simp only [Option.getD_some]
    rw [getD_map_range _ _ hi]
    exact roundTrip_axis embeddings
      [(pcaE1 sq embeddings r1).v, (pcaE2 sq embeddings r1 r2).v]
      [pcaS1 sq embeddings r1, pcaS2 sq embeddings r1 r2]
      (pcaE2 sq embeddings r1 r2).v (pcaE2 sq embeddings r1 r2).lambda
      (pcaS2 sq embeddings r1 r2) h2 hD hi (by omega) rfl rfl hU2 hs2 hs2sq

/- matVecMul of the 2 x 2 zero matrix is the zero vector, for every
input vector. -/
theorem matVecMul_zeroMat (v : List ℚ) :
    matVecMul [[0, 0], [0, 0]] v = [0, 0] := by
  norm_num [matVecMul, List.range_succ]

/- normalizeVec fixes the zero vector for every oracle. -/
theorem normalizeVec_zero2 (sq : ℚ → ℚ) : normalizeVec sq [0, 0] = [0, 0] := by
  simp [normalizeVec]

/- Power iteration on the 2 x 2 zero matrix collapses to the zero vector
after the first step. -/
theorem powerIterLoop_zeroMat (sq : ℚ → ℚ) :
    ∀ (t : ℕ) (v : List ℚ),
      powerIterLoop sq [[0, 0], [0, 0]] (t + 1) v = [0, 0] := by
  intro t
  induction t with
  | zero =>
    intro v
    rw [powerIterLoop, matVecMul_zeroMat, normalizeVec_zero2]
    rfl
  | succ m ih =>
    intro v
    rw [powerIterLoop, matVecMul_zeroMat, normalizeVec_zero2]
    exact ih [0, 0]

/- powerIterationTop1 on the 2 x 2 zero matrix returns the zero vector
with a zero Rayleigh quotient. -/
theorem powerIterationTop1_zeroMat (sq : ℚ → ℚ) (r : List ℚ) :
    powerIterationTop1 sq [[0, 0], [0, 0]] r 90 = ⟨[0, 0], 0⟩ := by
  simp only [powerIterationTop1]
  rw [show (90 : ℕ) = 89 + 1 from rfl, powerIterLoop_zeroMat, matVecMul_zeroMat]
  norm_num [dot, List.range_succ]

/- The Gram matrix of two identical one-dimensional samples is zero. -/
theorem pcaGram_ones : pcaGram [[1], [1]] = [[0, 0], [0, 0]] := by
  norm_num [pcaGram, pcaCenter, pcaRetained, centerEmbeddings, gramMatrix, dot,
    List.range_succ]

/- First eigen result on the identical-sample input. -/
theorem pcaE1_ones :
    pcaE1 zeroSqrt [[1], [1]] [3 / 2, 3 / 2] = ⟨[0, 0], 0⟩ := by
  rw [pcaE1, pcaGram_ones, powerIterationTop1_zeroMat]

/- Deflation leaves the zero matrix zero on the identical-sample input. -/
theorem pcaDeflated_ones :
    pcaDeflated zeroSqrt [[1], [1]] [3 / 2, 3 / 2] = [[0, 0], [0, 0]] := by
  rw [pcaDeflated, pcaGram_ones, pcaE1_ones]
  norm_num [deflate, List.range_succ]

/- Second eigen result on the identical-sample input. -/
theorem pcaE2_ones :
    pcaE2 zeroSqrt [[1], [1]] [3 / 2, 3 / 2] [3 / 2, 3 / 2] = ⟨[0, 0], 0⟩ := by
  rw [pcaE2, pcaDeflated_ones, powerIterationTop1_zeroMat]

/-- Witness for C1 at two identical one-dimensional samples, whose Gram
matrix is exactly zero, so the power-iteration outputs are exact
eigenpairs and the zero oracle is an exact square root of the clamped
eigenvalues. -/
theorem runPCA2D_roundTrip_witness :
    projectWithPCA (some ((pcaRetained [[1], [1]]).getD 0 []))
        (some (runPCA2D zeroSqrt (some [[1], [1]]) [3 / 2, 3 / 2] [3 / 2, 3 / 2]).mean)
        (some (runPCA2D zeroSqrt (some [[1], [1]]) [3 / 2, 3 / 2] [3 / 2, 3 / 2]).components) ≠ none ∧
    |((projectWithPCA (some ((pcaRetained [[1], [1]]).getD 0 []))
        (some (runPCA2D zeroSqrt (some [[1], [1]]) [3 / 2, 3 / 2] [3 / 2, 3 / 2]).mean)
        (some (runPCA2D zeroSqrt (some [[1], [1]]) [3 / 2, 3 / 2] [3 / 2, 3 / 2]).components)).getD (0, 0)).1 -
      ((runPCA2D zeroSqrt (some [[1], [1]]) [3 / 2, 3 / 2] [3 / 2, 3 / 2]).points2d.getD 0 (0, 0)).1| ≤
      eps * |(pcaE1 zeroSqrt [[1], [1]] [3 / 2, 3 / 2]).v.getD 0 0| ∧
    |((projectWithPCA (some ((pcaRetained [[1], [1]]).getD 0 []))
        (some (runPCA2D zeroSqrt (some [[1], [1]]) [3 / 2, 3 / 2] [3 / 2, 3 / 2]).mean)
        (some (runPCA2D zeroSqrt (some [[1], [1]]) [3 / 2, 3 / 2] [3 / 2, 3 / 2]).components)).getD (0, 0)).2 -
      ((runPCA2D zeroSqrt (some [[1], [1]]) [3 / 2, 3 / 2] [3 / 2, 3 / 2]).points2d.getD 0 (0, 0)).2| ≤
      eps * |(pcaE2 zeroSqrt [[1], [1]] [3 / 2, 3 / 2] [3 / 2, 3 / 2]).v.getD 0 0| :=
  runPCA2D_roundTrip zeroSqrt [[1], [1]] [3 / 2, 3 / 2] [3 / 2, 3 / 2] 1 0
    (by norm_num)
    (by simp)
    (by norm_num [pcaRetained])
    (by rw [pcaGram_ones, pcaE1_ones, matVecMul_zeroMat]; norm_num)
    (by rw [pcaGram_ones, pcaE2_ones, matVecMul_zeroMat]; norm_num)
    (le_of_eq rfl)
    (by rw [pcaE1_ones, show pcaS1 zeroSqrt [[1], [1]] [3 / 2, 3 / 2] = 0 from rfl]
        norm_num)
    (le_of_eq rfl)
    (by rw [pcaE2_ones,
          show pcaS2 zeroSqrt [[1], [1]] [3 / 2, 3 / 2] [3 / 2, 3 / 2] = 0 from rfl]
        norm_num)

/- normalizeVec with the zero oracle divides by the bare epsilon, that
is, multiplies every entry by 10 to the 12. -/
theorem normalizeVec_zeroSqrt (x y : ℚ) :
    normalizeVec zeroSqrt [x, y] = [x * 10 ^ 12, y * 10 ^ 12] := by
  simp [normalizeVec, nrm, zeroSqrt, eps, one_div, div_inv_eq_mul]

/- matVecMul of the opposite-pair matrix on an opposite pair. -/
theorem matVecMul_opp (g c : ℚ) :
    matVecMul [[g, -g], [-g, g]] [c, -c] = [2 * (g * c), -(2 * (g * c))] := by
  norm_num [matVecMul, List.range_succ]
  constructor <;> ring

/- matVecMul of the opposite-pair matrix on an equal pair vanishes. -/
theorem matVecMul_oppSame (g c : ℚ) :
    matVecMul [[g, -g], [-g, g]] [c, c] = [0, 0] := by
  norm_num [matVecMul, List.range_succ]

/- Closed form of the power-iteration loop with the zero oracle on the
opposite-pair matrix: each step multiplies the pair by 2 g 10^12. -/
theorem powerIterLoop_opp (g : ℚ) :
    ∀ (t : ℕ) (c : ℚ),
      powerIterLoop zeroSqrt [[g, -g], [-g, g]] t [c, -c] =
        [(2 * g * 10 ^ 12) ^ t * c, -((2 * g * 10 ^ 12) ^ t * c)] := by
  intro t
  induction t with
  | zero => intro c; simp [powerIterLoop]
  | succ m ih =>
    intro c
    rw [powerIterLoop, matVecMul_opp, normalizeVec_zeroSqrt,
      show -(2 * (g * c)) * 10 ^ 12 = -(2 * (g * c) * 10 ^ 12) from by ring,
      ih (2 * (g * c) * 10 ^ 12)]
    simp only [List.cons.injEq, and_true]
    constructor <;> ring

/- powerIterationTop1 with the zero oracle on the opposite-pair matrix,
with draws putting the start on the opposite-pair eigendirection. -/
theorem powerIterationTop1_oppA (g : ℚ) :
    powerIterationTop1 zeroSqrt [[g, -g], [-g, g]] [3 / 2, -(1 / 2)] 90 =
      ⟨[(2 * g * 10 ^ 12) ^ 90 * 10 ^ 12, -((2 * g * 10 ^ 12) ^ 90 * 10 ^ 12)],
        4 * (g * ((2 * g * 10 ^ 12) ^ 90 * 10 ^ 12) ^ 2)⟩ := by
  have h0 : (List.range ([[g, -g], [-g, g]] : List (List ℚ)).length).map
      (fun i => ([3 / 2, -(1 / 2)] : List ℚ).getD i 0 - 1 / 2) = [1, -1] := by
    norm_num [List.range_succ]
  simp only [powerIterationTop1]
  rw [h0, normalizeVec_zeroSqrt,
    show ((1 : ℚ) * 10 ^ 12) = (10 ^ 12 : ℚ) from by ring,
    show ((-1 : ℚ) * 10 ^ 12) = -(10 ^ 12 : ℚ) from by ring,
    powerIterLoop_opp g 90 (10 ^ 12), matVecMul_opp]
  simp only [EigResult.mk.injEq, true_and]
  norm_num [dot, List.range_succ]
  ring

/- powerIterationTop1 with the zero oracle on the opposite-pair matrix,
with draws putting the start on the equal-pair direction, collapses to
the zero eigenpair. -/
theorem powerIterationTop1_oppB (g : ℚ) :
    powerIterationTop1 zeroSqrt [[g, -g], [-g, g]] [3 / 2, 3 / 2] 90 =
      ⟨[0, 0], 0⟩ := by
  have h0 : (List.range ([[g, -g], [-g, g]] : List (List ℚ)).length).map
      (fun i => ([3 / 2, 3 / 2] : List ℚ).getD i 0 - 1 / 2) = [1, 1] := by
    norm_num [List.range_succ]
  simp only [powerIterationTop1]
  rw [h0, normalizeVec_zeroSqrt, show (90 : ℕ) = 89 + 1 from rfl, powerIterLoop,
    matVecMul_oppSame g (1 * 10 ^ 12), normalizeVec_zero2,
    show ([0, 0] : List ℚ) = [(0 : ℚ), -(0 : ℚ)] from by norm_num,
    powerIterLoop_opp g 89 0, matVecMul_opp]
  simp only [EigResult.mk.injEq]
  norm_num [dot, List.range_succ]

/- The Gram matrix of the samples [0] and [2] is the opposite-pair
matrix with g = 1. -/
theorem pcaGram_sep : pcaGram [[0], [2]] = [[1, -1], [-1, 1]] := by
  norm_num [pcaGram, pcaCenter, pcaRetained, centerEmbeddings, gramMatrix, dot,
    List.range_succ]

/- Centered matrix of the samples [0] and [2]. -/
theorem pcaCenter_sep : (pcaCenter [[0], [2]]).2 = [[-1], [1]] := by
  norm_num [pcaCenter, pcaRetained, centerEmbeddings, List.range_succ]

/- Entry (0, 0) of computeComponents for the centered matrix with rows
[-1] and [1]. -/
theorem computeComponents_pm1 (u1 u2 : List ℚ) (sv tv : ℚ) :
    ((computeComponents [[-1], [1]] [u1, u2] [sv, tv]).getD 0 []).getD 0 0 =
      (u1.getD 0 0 * -1 + u1.getD 1 0 * 1) * (1 / (sv + eps)) := by
  rw [computeComponents_row _ _ _ (by omega),
    show (([[-1], [1]] : List (List ℚ)).headD []).length = 1 from rfl,
    getD_map_range _ _ (show (0 : ℕ) < 1 by norm_num),
    show ([[(-1 : ℚ)], [1]] : List (List ℚ)).length = 2 from rfl,
    Finset.sum_range_succ, Finset.sum_range_succ, Finset.sum_range_zero]
  norm_num

/- First eigen result on the separated input with the eigendirection
draws. -/
theorem pcaE1_sepA :
    pcaE1 zeroSqrt [[0], [2]] [3 / 2, -(1 / 2)] =
      ⟨[(2 * 1 * 10 ^ 12) ^ 90 * 10 ^ 12, -((2 * 1 * 10 ^ 12) ^ 90 * 10 ^ 12)],
        4 * (1 * ((2 * 1 * 10 ^ 12) ^ 90 * 10 ^ 12) ^ 2)⟩ := by
  rw [pcaE1, pcaGram_sep]
  exact powerIterationTop1_oppA 1

/- First eigen result on the separated input with the collapsing
draws. -/
theorem pcaE1_sepB :
    pcaE1 zeroSqrt [[0], [2]] [3 / 2, 3 / 2] = ⟨[0, 0], 0⟩ := by
  rw [pcaE1, pcaGram_sep]
  exact powerIterationTop1_oppB 1

/- First component entry of the run with the eigendirection draws. -/
theorem runPCA2D_sep_entryA :
    ((runPCA2D zeroSqrt (some [[0], [2]]) [3 / 2, -(1 / 2)]
        [3 / 2, -(1 / 2)]).components.getD 0 []).getD 0 0 =
      -(2 * ((2 * 10 ^ 12) ^ 90 * 10 ^ 12) * 10 ^ 12) := by
  simp only [runPCA2D_some_eq zeroSqrt [[0], [2]] [3 / 2, -(1 / 2)]
    [3 / 2, -(1 / 2)] (by norm_num)]
  rw [pcaCenter_sep, computeComponents_pm1,
    show pcaS1 zeroSqrt [[0], [2]] [3 / 2, -(1 / 2)] = 0 from rfl]
  simp only [pcaE1_sepA]
  norm_num [eps]

/- First component entry of the run with the collapsing draws. -/
theorem runPCA2D_sep_entryB :
    ((runPCA2D zeroSqrt (some [[0], [2]]) [3 / 2, 3 / 2]
        [3 / 2, 3 / 2]).components.getD 0 []).getD 0 0 = 0 := by
  simp only [runPCA2D_some_eq zeroSqrt [[0], [2]] [3 / 2, 3 / 2]
    [3 / 2, 3 / 2] (by norm_num)]
  rw [pcaCenter_sep, computeComponents_pm1]
  simp [pcaE1_sepB]

/-- C10: projectWithPCA is deterministic, its result is a function of the
feature vector, mean and components alone (its embedding takes no random
draws), while runPCA2D depends on the random initialisation: two runs on
the same two-sample input whose draws start on different directions give
different results. -/
theorem projectWithPCA_deterministic :
    (∀ (eo mo : Option (List ℚ)) (co : Option (List (List ℚ)))
        (eo' mo' : Option (List ℚ)) (co' : Option (List (List ℚ))),
      eo = eo' → mo = mo' → co = co' →
      projectWithPCA eo mo co = projectWithPCA eo' mo' co') ∧
    runPCA2D zeroSqrt (some [[0], [2]]) [3 / 2, -(1 / 2)] [3 / 2, -(1 / 2)] ≠
      runPCA2D zeroSqrt (some [[0], [2]]) [3 / 2, 3 / 2] [3 / 2, 3 / 2] := by
  constructor
  · intro eo mo co eo' mo' co' h1 h2 h3
    rw [h1, h2, h3]
  · intro h
    have hentry :=
      congrArg (fun z : PCAResult => (z.components.getD 0 []).getD 0 0) h
    simp only [runPCA2D_sep_entryA, runPCA2D_sep_entryB] at hentry
    norm_num at hentry

/-- Witness for C10: a repeated projector call on equal concrete
arguments. -/
theorem projectWithPCA_deterministic_witness :
    projectWithPCA (some [1]) (some [2]) (some [[3], [4]]) =
      projectWithPCA (some [1]) (some [2]) (some [[3], [4]]) :=
  projectWithPCA_deterministic.1 (some [1]) (some [2]) (some [[3], [4]])
    (some [1]) (some [2]) (some [[3], [4]]) rfl rfl rfl

/- Reading below a set index is unchanged. -/
theorem getD_set_ne (l : Store) (r a : ℕ) (v : List ℚ) (h : a ≠ r) :
    List.getD (l.set r v) a [] = List.getD l a [] := by
  rw [List.getD_eq_getElem?_getD, List.getD_eq_getElem?_getD,
    List.getElem?_set_ne (by omega)]

/- FrameOK is reflexive on any store that is long enough. -/
theorem frameOK_refl {n : ℕ} {s : Store} (h : n ≤ s.length) : FrameOK n s s :=
  ⟨h, fun _ _ => rfl⟩

/- FrameOK composes. -/
theorem frameOK_trans {n : ℕ} {s s' s'' : Store}
    (h1 : FrameOK n s s') (h2 : FrameOK n s' s'') : FrameOK n s s'' :=
  ⟨h2.1, fun a ha => (h2.2 a ha).trans (h1.2 a ha)⟩

/- Allocation preserves the frame. -/
theorem frameOK_alloc {n : ℕ} {s : Store} (v : List ℚ) (h : n ≤ s.length) :
    FrameOK n s (hAlloc s v).1 := by
  refine ⟨by simp [hAlloc]; omega, fun a ha => ?_⟩
  simp only [hAlloc]
  rw [List.getD_eq_getElem?_getD, List.getD_eq_getElem?_getD,
    List.getElem?_append_left (by omega)]

/- A fresh reference is beyond the protected prefix. -/
theorem hAlloc_ref_ge {n : ℕ} {s : Store} (v : List ℚ) (h : n ≤ s.length) :
    n ≤ (hAlloc s v).2 := h

/- Writing at or beyond the protected prefix preserves the frame. -/
theorem frameOK_write {n : ℕ} {s s' : Store} (r : ℕ) (v : List ℚ)
    (h : FrameOK n s s') (hr : n ≤ r) : FrameOK n s (hWrite s' r v) := by
  refine ⟨by simp [hWrite]; exact h.1, fun a ha => ?_⟩
  rw [hWrite, getD_set_ne _ _ _ _ (by omega)]
  exact h.2 a ha

/- allocRowsImp preserves the frame and returns fresh references. -/
theorem allocRowsImp_frame (n : ℕ) :
    ∀ (rows : List (List ℚ)) (s : Store), n ≤ s.length →
      FrameOK n s (allocRowsImp s rows).1 ∧
        ∀ r ∈ (allocRowsImp s rows).2, n ≤ r := by
  intro rows
  induction rows with
  | nil =>
    intro s h
    exact ⟨frameOK_refl h, by simp [allocRowsImp]⟩
  | cons row rest ih =>
    intro s h
    have h1 : FrameOK n s (hWrite (hAlloc s (List.replicate row.length 0)).1
        (hAlloc s (List.replicate row.length 0)).2 row) :=
      frameOK_write _ _ (frameOK_alloc _ h) (hAlloc_ref_ge _ h)
    have ih' := ih _ h1.1
    constructor
    · exact frameOK_trans h1 ih'.1
    · intro r hr
      rw [allocRowsImp] at hr
      rcases List.mem_cons.mp hr with hr | hr
      · subst hr; exact hAlloc_ref_ge _ h
      · exact ih'.2 r hr

/- copyRowsImp preserves the frame. -/
theorem copyRowsImp_frame (n : ℕ) :
    ∀ (src : List ℕ) (s : Store), n ≤ s.length →
      FrameOK n s (copyRowsImp s src).1 ∧
        ∀ r ∈ (copyRowsImp s src).2, n ≤ r := by
  intro src
  induction src with
  | nil =>
    intro s h
    exact ⟨frameOK_refl h, by simp [copyRowsImp]⟩
  | cons ref rest ih =>
    intro s h
    have h1 : FrameOK n s (hAlloc s (hRead s ref)).1 := frameOK_alloc _ h
    have ih' := ih _ h1.1
    constructor
    · exact frameOK_trans h1 ih'.1
    · intro r hr
      rw [copyRowsImp] at hr
      rcases List.mem_cons.mp hr with hr | hr
      · subst hr; exact hAlloc_ref_ge _ h
      · exact ih'.2 r hr

/- The heap-model iteration loop preserves the frame: every write lands
on a vector allocated inside the loop. -/
theorem powerLoopImp_frame (n : ℕ) (sq : ℚ → ℚ) (A : List (List ℚ)) :
    ∀ (t : ℕ) (s : Store) (vref : ℕ), n ≤ s.length →
      FrameOK n s (powerLoopImp sq A t s vref).1 := by
  intro t
  induction t with
  | zero => intro s vref h; exact frameOK_refl h
  | succ m ih =>
    intro s vref h
    have h1 : FrameOK n s (hWrite (hAlloc s (matVecMul A (hRead s vref))).1
        (hAlloc s (matVecMul A (hRead s vref))).2
        (normalizeVec sq (hRead (hAlloc s (matVecMul A (hRead s vref))).1
          (hAlloc s (matVecMul A (hRead s vref))).2))) :=
      frameOK_write _ _ (frameOK_alloc _ h) (hAlloc_ref_ge _ h)
    exact frameOK_trans h1 (ih _ _ h1.1)

/- powerIterationTop1Imp preserves the frame. -/
theorem powerIterationTop1Imp_frame (n : ℕ) (sq : ℚ → ℚ) (s : Store)
    (aRefs : List ℕ) (r : List ℚ) (iters : ℕ) (h : n ≤ s.length) :
    FrameOK n s (powerIterationTop1Imp sq s aRefs r iters).1 := by
  have h1 : FrameOK n s (hWrite
      (hAlloc s ((List.range aRefs.length).map (fun i => r.getD i 0 - 1 / 2))).1
      (hAlloc s ((List.range aRefs.length).map (fun i => r.getD i 0 - 1 / 2))).2
      (normalizeVec sq (hRead
        (hAlloc s ((List.range aRefs.length).map (fun i => r.getD i 0 - 1 / 2))).1
        (hAlloc s ((List.range aRefs.length).map (fun i => r.getD i 0 - 1 / 2))).2))) :=
    frameOK_write _ _ (frameOK_alloc _ h) (hAlloc_ref_ge _ h)
  exact frameOK_trans h1 (powerLoopImp_frame n sq _ iters _ _ h1.1)

/- deflateRowsImp preserves the frame when every written reference is
beyond the protected prefix. -/
theorem deflateRowsImp_frame (n : ℕ) (lambda : ℚ) (v : List ℚ) (nrows : ℕ) :
    ∀ (ps : List (ℕ × ℕ)) (s : Store), n ≤ s.length →
      (∀ p ∈ ps, n ≤ p.2) →
      FrameOK n s (deflateRowsImp lambda v nrows s ps) := by
  intro ps
  induction ps with
  | nil => intro s h _; exact frameOK_refl h
  | cons p rest ih =>
    intro s h hps
    have h1 : FrameOK n s (hWrite s p.2 ((List.range nrows).map (fun j =>
        (hRead s p.2).getD j 0 - lambda * v.getD p.1 0 * v.getD j 0))) :=
      frameOK_write _ _ (frameOK_refl h) (hps p (List.mem_cons_self p rest))
    rw [deflateRowsImp]
    exact frameOK_trans h1 (ih _ h1.1 (fun q hq => hps q (List.mem_cons_of_mem p hq)))

/- deflateImp preserves the frame when the row references are fresh. -/
theorem deflateImp_frame (n : ℕ) (s : Store) (aRefs : List ℕ) (v : List ℚ)
    (lambda : ℚ) (h : n ≤ s.length) (ha : ∀ r ∈ aRefs, n ≤ r) :
    FrameOK n s (deflateImp s aRefs v lambda) := by
  refine deflateRowsImp_frame n lambda v aRefs.length _ s h (fun p hp => ?_)
  exact ha p.2 (List.of_mem_zip hp).2

/- centerEmbeddingsImp preserves the frame: it only allocates fresh
arrays and writes to them. -/
theorem centerEmbeddingsImp_frame (n : ℕ) (s : Store) (refs : List ℕ)
    (h : n ≤ s.length) : FrameOK n s (centerEmbeddingsImp s refs).1 := by
  have h1 : FrameOK n s (hWrite
      (hAlloc s (List.replicate (centerEmbeddings (refs.map (hRead s))).1.length 0)).1
      (hAlloc s (List.replicate (centerEmbeddings (refs.map (hRead s))).1.length 0)).2
      (centerEmbeddings (refs.map (hRead s))).1) :=
    frameOK_write _ _ (frameOK_alloc _ h) (hAlloc_ref_ge _ h)
  exact frameOK_trans h1 (allocRowsImp_frame n _ _ h1.1).1

/- gramMatrixImp preserves the frame and returns fresh references. -/
theorem gramMatrixImp_frame (n : ℕ) (s : Store) (xcRefs : List ℕ)
    (h : n ≤ s.length) :
    FrameOK n s (gramMatrixImp s xcRefs).1 ∧
      ∀ r ∈ (gramMatrixImp s xcRefs).2, n ≤ r := by
  have h1 := allocRowsImp_frame n (gramMatrix (xcRefs.map (hRead s))) s h
  have h2 := copyRowsImp_frame n
    (allocRowsImp s (gramMatrix (xcRefs.map (hRead s)))).2
    (allocRowsImp s (gramMatrix (xcRefs.map (hRead s)))).1 h1.1.1
  exact ⟨frameOK_trans h1.1 h2.1, h2.2⟩

/- The whole imperative pipeline preserves every array that existed when
it was called. -/
theorem runPCA2DImp_frameOK (sq : ℚ → ℚ) (s : Store) (refs : List ℕ)
    (r1 r2 : List ℚ) :
    FrameOK s.length s (runPCA2DImp sq s refs r1 r2).1 := by
  rw [runPCA2DImp]
  split
  · exact frameOK_refl (le_refl _)
  · dsimp only
    generalize (if refs.length > 400 then refs.drop (refs.length - 400) else refs) = R
    have h1 := centerEmbeddingsImp_frame s.length s R (le_refl _)
    have h2 := gramMatrixImp_frame s.length (centerEmbeddingsImp s R).1
      (centerEmbeddingsImp s R).2.2 h1.1
    have h12 := frameOK_trans h1 h2.1
    have h3 := powerIterationTop1Imp_frame s.length sq
      (gramMatrixImp (centerEmbeddingsImp s R).1 (centerEmbeddingsImp s R).2.2).1
      (gramMatrixImp (centerEmbeddingsImp s R).1 (centerEmbeddingsImp s R).2.2).2
      r1 90 h12.1
    have h13 := frameOK_trans h12 h3
    have h4 := deflateImp_frame s.length
      (powerIterationTop1Imp sq
        (gramMatrixImp (centerEmbeddingsImp s R).1 (centerEmbeddingsImp s R).2.2).1
        (gramMatrixImp (centerEmbeddingsImp s R).1 (centerEmbeddingsImp s R).2.2).2
        r1 90).1
      (gramMatrixImp (centerEmbeddingsImp s R).1 (centerEmbeddingsImp s R).2.2).2
      (hRead (powerIterationTop1Imp sq
        (gramMatrixImp (centerEmbeddingsImp s R).1 (centerEmbeddingsImp s R).2.2).1
        (gramMatrixImp (centerEmbeddingsImp s R).1 (centerEmbeddingsImp s R).2.2).2
        r1 90).1
        (powerIterationTop1Imp sq
          (gramMatrixImp (centerEmbeddingsImp s R).1 (centerEmbeddingsImp s R).2.2).1
          (gramMatrixImp (centerEmbeddingsImp s R).1 (centerEmbeddingsImp s R).2.2).2
          r1 90).2.1)
      (powerIterationTop1Imp sq
        (gramMatrixImp (centerEmbeddingsImp s R).1 (centerEmbeddingsImp s R).2.2).1
        (gramMatrixImp (centerEmbeddingsImp s R).1 (centerEmbeddingsImp s R).2.2).2
        r1 90).2.2
      h13.1 h2.2
    have h14 := frameOK_trans h13 h4
    have h5 := powerIterationTop1Imp_frame s.length sq _
      (gramMatrixImp (centerEmbeddingsImp s R).1 (centerEmbeddingsImp s R).2.2).2
      r2 90 h14.1
    exact frameOK_trans h14 h5

/- Setting the slot just past a list rewrites the appended singleton. -/
theorem set_append_length (s : Store) (a v : List ℚ) :
    (s ++ [a]).set s.length v = s ++ [v] := by
  induction s with
  | nil => rfl
  | cons x xs ih => simp [ih]

/- Reading left of an append. -/
theorem getD_append_left {s : Store} {a : ℕ} (t : Store) (h : a < s.length) :
    List.getD (s ++ t) a [] = List.getD s a [] := by
  rw [List.getD_eq_getElem?_getD, List.getD_eq_getElem?_getD,
    List.getElem?_append_left h]

/- Reading an appended block at its offset. -/
theorem getD_append_offset (s : Store) (t : Store) (i : ℕ) :
    List.getD (s ++ t) (s.length + i) [] = List.getD t i [] := by
  induction s with
  | nil => simp
  | cons x xs ih => simpa [Nat.succ_add] using ih

/- Reading the single appended slot. -/
theorem getD_append_length (s : Store) (a : List ℚ) :
    List.getD (s ++ [a]) s.length [] = a := by
  simp

/- Reading every index of a list back yields the list. -/
theorem map_getD_range {α : Type} (l : List α) (d : α) :
    (List.range l.length).map (fun i => l.getD i d) = l := by
  induction l with
  | nil => rfl
  | cons x xs ih =>
    rw [List.length_cons, List.range_succ_eq_map, List.map_cons, List.map_map]
    simp only [List.getD_cons_zero, Function.comp_def, List.getD_cons_succ]
    rw [ih]

/- allocRowsImp appends exactly the rows and returns their addresses. -/
theorem allocRowsImp_spec :
    ∀ (rows : List (List ℚ)) (s : Store),
      allocRowsImp s rows =
        (s ++ rows, (List.range rows.length).map (fun i => s.length + i)) := by
  intro rows
  induction rows with
  | nil => intro s; simp [allocRowsImp]
  | cons row rest ih =>
    intro s
    rw [allocRowsImp]
    dsimp only [hAlloc, hWrite]
    rw [set_append_length, ih]
    simp only [Prod.mk.injEq]
    constructor
    · simp
    · rw [List.length_cons, List.range_succ_eq_map, List.map_cons, List.map_map]
      simp only [Function.comp_def, Nat.add_zero, List.length_append,
        List.length_cons, List.length_nil, List.cons.injEq, true_and]
      refine List.map_congr_left (fun i _ => ?_)
      omega

/- copyRowsImp appends copies of the referenced arrays, read from the
store at entry, and returns the fresh addresses. -/
theorem copyRowsImp_spec :
    ∀ (src : List ℕ) (s : Store), (∀ r ∈ src, r < s.length) →
      copyRowsImp s src =
        (s ++ src.map (fun r => hRead s r),
         (List.range src.length).map (fun i => s.length + i)) := by
  intro src
  induction src with
  | nil => intro s _; simp [copyRowsImp]
  | cons ref rest ih =>
    intro s hv
    rw [copyRowsImp]
    dsimp only [hAlloc]
    rw [ih (s ++ [hRead s ref])
      (fun r hr => by
        rw [List.length_append]
        have := hv r (List.mem_cons_of_mem ref hr)
        omega)]
    simp only [Prod.mk.injEq]
    constructor
    · rw [List.append_assoc, List.singleton_append, List.map_cons]
      congr 1
      simp only [List.cons.injEq, true_and]
      refine List.map_congr_left (fun r hr => ?_)
      exact (getD_append_left [hRead s ref] (hv r (List.mem_cons_of_mem ref hr)))
    · rw [List.length_cons, List.range_succ_eq_map, List.map_cons, List.map_map]
      simp only [Function.comp_def, Nat.add_zero, List.length_append,
        List.length_cons, List.length_nil, List.cons.injEq, true_and]
      refine List.map_congr_left (fun i _ => ?_)
      omega

/- centerEmbeddingsImp appends the mean and the centered rows and
returns their addresses. -/
theorem centerEmbeddingsImp_spec (s : Store) (refs : List ℕ) :
    centerEmbeddingsImp s refs =
      ((s ++ [(centerEmbeddings (refs.map (hRead s))).1]) ++
         (centerEmbeddings (refs.map (hRead s))).2,
       s.length,
       (List.range (centerEmbeddings (refs.map (hRead s))).2.length).map
         (fun i => (s ++ [(centerEmbeddings (refs.map (hRead s))).1]).length + i)) := by
  rw [centerEmbeddingsImp]
  dsimp only [hAlloc, hWrite]
  rw [set_append_length, allocRowsImp_spec]

/- gramMatrixImp appends the Gram rows twice (the Float32Array originals
and their Array.from copies) and returns the copies' addresses. -/
theorem gramMatrixImp_spec (s : Store) (xcRefs : List ℕ) :
    gramMatrixImp s xcRefs =
      ((s ++ gramMatrix (xcRefs.map (hRead s))) ++
         gramMatrix (xcRefs.map (hRead s)),
       (List.range (gramMatrix (xcRefs.map (hRead s))).length).map
         (fun i => (s ++ gramMatrix (xcRefs.map (hRead s))).length + i)) := by
  rw [gramMatrixImp]
  rw [allocRowsImp_spec, copyRowsImp_spec _ _ (fun r hr => by
    obtain ⟨i, hi, hri⟩ := List.mem_map.mp hr
    rw [List.length_append, ← hri]
    have := List.mem_range.mp hi
    omega)]
  simp only [Prod.mk.injEq]
  constructor
  · congr 1
    rw [List.map_map]
    have hcomp : ((fun r => hRead (s ++ gramMatrix (xcRefs.map (hRead s))) r) ∘
        fun i => s.length + i) =
        fun i => List.getD (gramMatrix (xcRefs.map (hRead s))) i [] := by
      funext i
      exact getD_append_offset s (gramMatrix (xcRefs.map (hRead s))) i
    rw [hcomp, map_getD_range]
  · rw [List.length_map, List.length_range]

/- hRead versions of the append lemmas. -/
theorem hRead_append_length (s : Store) (a : List ℚ) :
    hRead (s ++ [a]) s.length = a := getD_append_length s a

/- Reading left of an appended block. -/
theorem hRead_append_left {s : Store} {a : ℕ} (t : Store) (h : a < s.length) :
    hRead (s ++ t) a = hRead s a := getD_append_left t h

/- Reading an appended block at its offset. -/
theorem hRead_append_offset (s t : Store) (i : ℕ) :
    hRead (s ++ t) (s.length + i) = List.getD t i [] := getD_append_offset s t i

/- The heap-model loop computes the pure loop: the final vector read
back from its reference is powerIterLoop of the initial vector, and the
final reference is fresh and valid. -/
theorem powerLoopImp_spec (sq : ℚ → ℚ) (A : List (List ℚ)) :
    ∀ (t : ℕ) (s : Store) (vref : ℕ), vref < s.length →
      hRead (powerLoopImp sq A t s vref).1 (powerLoopImp sq A t s vref).2 =
        powerIterLoop sq A t (hRead s vref) ∧
      vref ≤ (powerLoopImp sq A t s vref).2 ∧
      (powerLoopImp sq A t s vref).2 < (powerLoopImp sq A t s vref).1.length := by
  intro t
  induction t with
  | zero => intro s vref h; exact ⟨rfl, le_refl _, h⟩
  | succ m ih =>
    intro s vref h
    rw [powerLoopImp, powerIterLoop]
    dsimp only [hAlloc, hWrite]
    rw [hRead_append_length, set_append_length]
    have h' : s.length <
        (s ++ [normalizeVec sq (matVecMul A (hRead s vref))]).length := by
      rw [List.length_append]
      simp
    have hih := ih (s ++ [normalizeVec sq (matVecMul A (hRead s vref))])
      s.length h'
    rw [hRead_append_length] at hih
    exact ⟨hih.1, le_trans (le_of_lt h) hih.2.1, hih.2.2⟩

/- The heap-model power iteration computes the pure powerIterationTop1
on the values its matrix references hold at entry; the returned vector
reference is fresh and valid. -/
theorem powerIterationTop1Imp_spec (sq : ℚ → ℚ) (s : Store) (aRefs : List ℕ)
    (r : List ℚ) (iters : ℕ) :
    hRead (powerIterationTop1Imp sq s aRefs r iters).1
        (powerIterationTop1Imp sq s aRefs r iters).2.1 =
      (powerIterationTop1 sq (aRefs.map (hRead s)) r iters).v ∧
    (powerIterationTop1Imp sq s aRefs r iters).2.2 =
      (powerIterationTop1 sq (aRefs.map (hRead s)) r iters).lambda ∧
    s.length ≤ (powerIterationTop1Imp sq s aRefs r iters).2.1 ∧
    (powerIterationTop1Imp sq s aRefs r iters).2.1 <
      (powerIterationTop1Imp sq s aRefs r iters).1.length := by
  rw [powerIterationTop1Imp, powerIterationTop1]
  dsimp only [hAlloc, hWrite]
  rw [hRead_append_length, set_append_length]
  have h' : s.length <
      (s ++ [normalizeVec sq ((List.range aRefs.length).map
        (fun i => r.getD i 0 - 1 / 2))]).length := by
    rw [List.length_append]
    simp
  have hspec := powerLoopImp_spec sq (aRefs.map (hRead s)) iters
    (s ++ [normalizeVec sq ((List.range aRefs.length).map
      (fun i => r.getD i 0 - 1 / 2))]) s.length h'
  rw [hRead_append_length] at hspec
  rw [List.length_map]
  exact ⟨hspec.1, by rw [hspec.1], hspec.2.1, hspec.2.2⟩

/- Reading back a valid set index. -/
theorem getD_set_self (l : Store) (r : ℕ) (v : List ℚ) (h : r < l.length) :
    List.getD (l.set r v) r [] = v := by
  rw [List.getD_eq_getElem?_getD, List.getElem?_set_self, Option.getD_some]
  omega

/- deflateRowsImp preserves the store length. -/
theorem deflateRowsImp_length (lambda : ℚ) (v : List ℚ) (nrows : ℕ) :
    ∀ (ps : List (ℕ × ℕ)) (s : Store),
      (deflateRowsImp lambda v nrows s ps).length = s.length := by
  intro ps
  induction ps with
  | nil => intro s; rfl
  | cons q rest ih =>
    intro s
    rw [deflateRowsImp, ih]
    simp [hWrite]

/- deflateRowsImp leaves every address it does not write unchanged. -/
theorem deflateRowsImp_notMem (lambda : ℚ) (v : List ℚ) (nrows : ℕ) :
    ∀ (ps : List (ℕ × ℕ)) (s : Store) (b : ℕ), (∀ p ∈ ps, p.2 ≠ b) →
      hRead (deflateRowsImp lambda v nrows s ps) b = hRead s b := by
  intro ps
  induction ps with
  | nil => intro s b _; rfl
  | cons q rest ih =>
    intro s b hb
    rw [deflateRowsImp,
      ih _ _ (fun p hp => hb p (List.mem_cons_of_mem q hp))]
    exact getD_set_ne _ _ _ _ (Ne.symm (hb q (List.mem_cons_self q rest)))

/- The value deflateRowsImp leaves at each written address: the update
computed from the row's original content. -/
theorem deflateRowsImp_spec (lambda : ℚ) (v : List ℚ) (nrows : ℕ) :
    ∀ (ps : List (ℕ × ℕ)) (s : Store),
      ps.Pairwise (fun p q => p.2 ≠ q.2) →
      (∀ p ∈ ps, p.2 < s.length) →
      ∀ p ∈ ps,
        hRead (deflateRowsImp lambda v nrows s ps) p.2 =
          (List.range nrows).map (fun j =>
            (hRead s p.2).getD j 0 - lambda * v.getD p.1 0 * v.getD j 0) := by
  intro ps
  induction ps with
  | nil => intro s _ _ p hp; cases hp
  | cons q rest ih =>
    intro s hpair hvalid p hp
    rw [deflateRowsImp]
    rcases List.mem_cons.mp hp with hq | hrest
    · subst hq
      rw [deflateRowsImp_notMem _ _ _ _ _ _
        (fun x hx => Ne.symm ((List.pairwise_cons.mp hpair).1 x hx))]
      exact getD_set_self _ _ _ (hvalid p (List.mem_cons_self p rest))
    · have hne : p.2 ≠ q.2 :=
        Ne.symm ((List.pairwise_cons.mp hpair).1 p hrest)
      have hrec := ih
        (hWrite s q.2 ((List.range nrows).map (fun j =>
          (hRead s q.2).getD j 0 - lambda * v.getD q.1 0 * v.getD j 0)))
        (List.pairwise_cons.mp hpair).2
        (fun x hx => by
          rw [hWrite, List.length_set]
          exact hvalid x (List.mem_cons_of_mem q hx))
        p hrest
      rw [show hRead (hWrite s q.2 ((List.range nrows).map (fun j =>
            (hRead s q.2).getD j 0 - lambda * v.getD q.1 0 * v.getD j 0))) p.2 =
          hRead s p.2 from getD_set_ne _ _ _ _ hne] at hrec
      exact hrec

/- Zipping indices with pairwise-distinct references gives pairs with
pairwise-distinct second components. -/
theorem pairwise_zip_snd :
    ∀ (l1 : List ℕ) (l2 : List ℕ), l2.Pairwise (· ≠ ·) →
      (List.zip l1 l2).Pairwise (fun p q : ℕ × ℕ => p.2 ≠ q.2) := by
  intro l1
  induction l1 with
  | nil => intro l2 _; simp
  | cons x xs ih =>
    intro l2 h
    cases l2 with
    | nil => simp
    | cons y ys =>
      rw [List.zip_cons_cons, List.pairwise_cons]
      refine ⟨fun p hp => ?_, ih ys (List.pairwise_cons.mp h).2⟩
      exact (List.pairwise_cons.mp h).1 p.2 (List.of_mem_zip hp).2

/- deflateImp preserves the store length. -/
theorem deflateImp_length (s : Store) (aRefs : List ℕ) (v : List ℚ)
    (lambda : ℚ) : (deflateImp s aRefs v lambda).length = s.length :=
  deflateRowsImp_length lambda v aRefs.length _ s

/- deflateImp leaves every address outside the row references
unchanged. -/
theorem deflateImp_notMem (s : Store) (aRefs : List ℕ) (v : List ℚ)
    (lambda : ℚ) (b : ℕ) (hb : b ∉ aRefs) :
    hRead (deflateImp s aRefs v lambda) b = hRead s b := by
  refine deflateRowsImp_notMem lambda v aRefs.length _ s b (fun p hp => ?_)
  intro hpb
  exact hb (hpb ▸ (List.of_mem_zip hp).2)

/- Reading the row references back after deflateImp gives exactly the
pure deflate of the values they held before. -/
theorem deflateImp_reads (s : Store) (aRefs : List ℕ) (v : List ℚ)
    (lambda : ℚ) (hdist : aRefs.Pairwise (· ≠ ·))
    (hvalid : ∀ r ∈ aRefs, r < s.length) :
    aRefs.map (hRead (deflateImp s aRefs v lambda)) =
      deflate (aRefs.map (hRead s)) v lambda := by
  refine List.ext_getElem (by simp [deflate]) (fun i h1 h2 => ?_)
  rw [List.getElem_map]
  have hi : i < aRefs.length := by simpa using h1
  have hzlen : i < (List.zip (List.range aRefs.length) aRefs).length := by
    rw [List.length_zip, List.length_range]
    omega
  have hmem : (i, aRefs[i]) ∈ List.zip (List.range aRefs.length) aRefs := by
    have hz : (List.zip (List.range aRefs.length) aRefs)[i] = (i, aRefs[i]) := by
      rw [List.getElem_zip, List.getElem_range]
    exact hz ▸ List.getElem_mem hzlen
  have hspec := deflateRowsImp_spec lambda v aRefs.length
    (List.zip (List.range aRefs.length) aRefs) s
    (pairwise_zip_snd _ _ hdist)
    (fun p hp => hvalid p.2 (List.of_mem_zip hp).2)
    (i, aRefs[i]) hmem
  dsimp only at hspec
  refine Eq.trans hspec ?_
  simp only [deflate, List.getElem_map, List.getElem_range, List.length_map]
  refine List.map_congr_left (fun j _ => ?_)
  have : (aRefs.map (hRead s)).getD i [] = hRead s aRefs[i] := by
    rw [List.getD_eq_getElem?_getD, List.getElem?_eq_getElem (by simpa using hi),
      Option.getD_some, List.getElem_map]
  rw [this]

/- Reading a freshly appended block back through its offset references
yields the block. -/
theorem read_appended_block (s0 blk : Store) :
    ((List.range blk.length).map (fun i => s0.length + i)).map
      (hRead (s0 ++ blk)) = blk := by
  rw [List.map_map]
  have h : (hRead (s0 ++ blk) ∘ fun i => s0.length + i) =
      fun i => List.getD blk i [] :=
    funext (fun i => hRead_append_offset s0 blk i)
  rw [h, map_getD_range]

/- An address below the block is not one of the block's references. -/
theorem notMem_offset_refs {s0len blen b : ℕ} (hb : b < s0len) :
    b ∉ (List.range blen).map (fun i => s0len + i) := by
  intro hmem
  obtain ⟨i, _, hi⟩ := List.mem_map.mp hmem
  omega

/- An address past the block is not one of the block's references. -/
theorem notMem_offset_refs_ge {s0len blen b : ℕ} (hb : s0len + blen ≤ b) :
    b ∉ (List.range blen).map (fun i => s0len + i) := by
  intro hmem
  obtain ⟨i, hir, hi⟩ := List.mem_map.mp hmem
  have := List.mem_range.mp hir
  omega

/- Offset references are pairwise distinct. -/
theorem pairwise_offset_refs (s0len blen : ℕ) :
    ((List.range blen).map (fun i => s0len + i)).Pairwise (· ≠ ·) := by
  rw [List.pairwise_map]
  refine List.Pairwise.imp ?_ (List.pairwise_lt_range blen)
  intro a b hab
  omega

/- Offset references lie below the end of the extended store. -/
theorem mem_offset_refs_lt {s0len blen r : ℕ}
    (h : r ∈ (List.range blen).map (fun i => s0len + i)) : r < s0len + blen := by
  obtain ⟨i, hir, hi⟩ := List.mem_map.mp h
  have := List.mem_range.mp hir
  omega

/- The heap-model pipeline returns exactly the pure runPCA2D result on
the sample values its references hold at entry. -/
theorem runPCA2DImp_result (sq : ℚ → ℚ) (s : Store) (refs : List ℕ)
    (r1 r2 : List ℚ) :
    (runPCA2DImp sq s refs r1 r2).2 =
      runPCA2D sq (some (refs.map (hRead s))) r1 r2 := by
  by_cases hlen : refs.length < 2
  · rw [runPCA2DImp, if_pos hlen]
    simp only [runPCA2D]
    rw [if_pos (by rwa [List.length_map])]
  · rw [runPCA2D_some_eq sq (refs.map (hRead s)) r1 r2
      (by rw [List.length_map]; omega)]
    simp only [pcaE1, pcaE2, pcaS1, pcaS2, pcaLambda1, pcaLambda2,
      pcaDeflated, pcaGram, pcaCenter]
    rw [runPCA2DImp, if_neg hlen]
    dsimp only
    have hR : (if refs.length > 400 then refs.drop (refs.length - 400)
          else refs).map (hRead s) = pcaRetained (refs.map (hRead s)) := by
      unfold pcaRetained
      rw [List.length_map]
      split
      · rw [List.map_drop]
      · rfl
    have hRlen : (if refs.length > 400 then refs.drop (refs.length - 400)
          else refs).length = (pcaRetained (refs.map (hRead s))).length := by
      rw [← hR, List.length_map]
    simp only [centerEmbeddingsImp_spec, hR, hRlen]
    simp only [gramMatrixImp_spec, read_appended_block]
    generalize hC : centerEmbeddings (pcaRetained (refs.map (hRead s))) = C
    generalize hG : gramMatrix C.2 = G
    generalize hsC : s ++ [C.1] ++ C.2 = sC
    generalize ha : (List.range G.length).map (fun i => (sC ++ G).length + i) = arefs
    generalize hx : (List.range C.2.length).map (fun i => (s ++ [C.1]).length + i) = xrefs
    generalize hE1 : powerIterationTop1Imp sq (sC ++ G ++ G) arefs r1 90 = E1
    generalize hS4 : deflateImp E1.1 arefs (hRead E1.1 E1.2.1) E1.2.2 = S4
    generalize hE2 : powerIterationTop1Imp sq S4 arefs r2 90 = E2
    have hlen1 : (s ++ [C.1]).length = s.length + 1 := by simp
    have hlen2 : sC.length = (s ++ [C.1]).length + C.2.length := by
      rw [← hsC]
      exact List.length_append _ _
    have hlen3 : (sC ++ G).length = sC.length + G.length := List.length_append _ _
    have hlen4 : (sC ++ G ++ G).length = (sC ++ G).length + G.length :=
      List.length_append _ _
    have hreadG : List.map (hRead (sC ++ G ++ G)) arefs = G := by
      rw [← ha]
      exact read_appended_block (sC ++ G) G
    have hsp1 := powerIterationTop1Imp_spec sq (sC ++ G ++ G) arefs r1 90
    rw [hE1, hreadG] at hsp1
    obtain ⟨hv1, hl1, hge1, hlt1⟩ := hsp1
    have hfr1 := powerIterationTop1Imp_frame (sC ++ G ++ G).length sq
      (sC ++ G ++ G) arefs r1 90 (le_refl _)
    rw [hE1] at hfr1
    have hfr1len := hfr1.1
    have hreadG1 : List.map (hRead E1.1) arefs = G := by
      rw [← hreadG]
      refine List.map_congr_left (fun r hr => ?_)
      refine hfr1.2 r ?_
      rw [← ha] at hr
      have := mem_offset_refs_lt hr
      omega
    have hdist : arefs.Pairwise (· ≠ ·) := by
      rw [← ha]
      exact pairwise_offset_refs _ _
    have hvalid1 : ∀ r ∈ arefs, r < E1.1.length := by
      intro r hr
      rw [← ha] at hr
      have := mem_offset_refs_lt hr
      omega
    have hdf := deflateImp_reads E1.1 arefs (hRead E1.1 E1.2.1) E1.2.2 hdist hvalid1
    rw [hS4, hreadG1, hv1, hl1] at hdf
    have hS4len : S4.length = E1.1.length := by
      rw [← hS4]
      exact deflateImp_length _ _ _ _
    have hsp2 := powerIterationTop1Imp_spec sq S4 arefs r2 90
    rw [hE2, hdf] at hsp2
    obtain ⟨hv2, hl2, hge2, hlt2⟩ := hsp2
    have hfr2 := powerIterationTop1Imp_frame S4.length sq S4 arefs r2 90 (le_refl _)
    rw [hE2] at hfr2
    have hU1 : hRead E2.1 E1.2.1 = (powerIterationTop1 sq G r1 90).v := by
      have step1 : hRead E2.1 E1.2.1 = hRead S4 E1.2.1 :=
        hfr2.2 E1.2.1 (by omega)
      have step2 : hRead S4 E1.2.1 = hRead E1.1 E1.2.1 := by
        rw [← hS4]
        refine deflateImp_notMem _ _ _ _ _ ?_
        rw [← ha]
        exact notMem_offset_refs_ge (by omega)
      rw [step1, step2, hv1]
    have hmean : hRead E2.1 s.length = C.1 := by
      have step1 : hRead E2.1 s.length = hRead S4 s.length :=
        hfr2.2 _ (by omega)
      have step2 : hRead S4 s.length = hRead E1.1 s.length := by
        rw [← hS4]
        refine deflateImp_notMem _ _ _ _ _ ?_
        rw [← ha]
        exact notMem_offset_refs (by omega)
      have step3 : hRead E1.1 s.length = hRead (sC ++ G ++ G) s.length :=
        hfr1.2 _ (by omega)
      have step4 : hRead (sC ++ G ++ G) s.length = hRead sC s.length := by
        rw [hRead_append_left G (by omega), hRead_append_left G (by omega)]
      have step5 : hRead sC s.length = C.1 := by
        rw [← hsC, hRead_append_left C.2 (by omega)]
        exact hRead_append_length s C.1
      rw [step1, step2, step3, step4, step5]
    have hXc : List.map (hRead E2.1) xrefs = C.2 := by
      have hstep : ∀ r ∈ xrefs, hRead E2.1 r = hRead sC r := by
        intro r hr
        rw [← hx] at hr
        have hrlt := mem_offset_refs_lt hr
        have step1 : hRead E2.1 r = hRead S4 r := hfr2.2 _ (by omega)
        have step2 : hRead S4 r = hRead E1.1 r := by
          rw [← hS4]
          refine deflateImp_notMem _ _ _ _ _ ?_
          rw [← ha]
          exact notMem_offset_refs (by omega)
        have step3 : hRead E1.1 r = hRead (sC ++ G ++ G) r :=
          hfr1.2 _ (by omega)
        have step4 : hRead (sC ++ G ++ G) r = hRead sC r := by
          rw [hRead_append_left G (by omega), hRead_append_left G (by omega)]
        rw [step1, step2, step3, step4]
      calc List.map (hRead E2.1) xrefs
          = List.map (hRead sC) xrefs := List.map_congr_left hstep
        _ = C.2 := by
            rw [← hx, ← hsC]
            exact read_appended_block (s ++ [C.1]) C.2
    rw [hU1, hv2, hl1, hl2, hmean, hXc]

/-- C9: runPCA2DImp, the heap model of runPCA2D in which every array the
source allocates and every in-place mutation (filling the mean and the
centered and Gram rows, renormalizing the iteration vector, deflating the
copied Gram matrix) is explicit, leaves every array that existed at entry
unchanged: the samples argument and every feature vector in it are intact,
because deflation and normalization only ever write to arrays allocated
inside the call; and it returns exactly the pure runPCA2D result on the
sample values its references hold at entry, so the model computes the
same function. -/
theorem runPCA2D_noMutation (sq : ℚ → ℚ) (s : Store) (refs : List ℕ)
    (r1 r2 : List ℚ) (a : ℕ) (ha : a < s.length) :
    hRead (runPCA2DImp sq s refs r1 r2).1 a = hRead s a ∧
    (runPCA2DImp sq s refs r1 r2).2 =
      runPCA2D sq (some (refs.map (hRead s))) r1 r2 :=
  ⟨(runPCA2DImp_frameOK sq s refs r1 r2).2 a ha,
   runPCA2DImp_result sq s refs r1 r2⟩

/-- Witness for C9: a two-sample store is unchanged at address 0 by a
full run, whose result is the pure run on the two samples. -/
theorem runPCA2D_noMutation_witness :
    hRead (runPCA2DImp zeroSqrt [[1], [2]] [0, 1] [] []).1 0 =
      hRead [[1], [2]] 0 ∧
    (runPCA2DImp zeroSqrt [[1], [2]] [0, 1] [] []).2 =
      runPCA2D zeroSqrt (some (([0, 1] : List ℕ).map (hRead [[1], [2]]))) [] [] :=
  runPCA2D_noMutation zeroSqrt [[1], [2]] [0, 1] [] [] 0 (by norm_num)
